import Mathlib

/-!
# Verification of the chatapp streaming chat session runtime

A shallow embedding, in Lean 4, of the core runtime of `src/ChatApp.tsx`:
the hybrid byte-stream decoder (`createHybridStreamDecoder`), the stream
timers (`createStreamTimers`), the transcript operations
(`updateAssistantText`, `abortInFlight`), the streaming send loop
(`sendMessageStream`), and the reconciliation poller
(`pollForFinalAssistant`).

Modelling conventions:
* Bytes are `Nat` (values `< 256` in all intended uses); Unicode text is a
  `List Nat` of scalar values.  A JS `Uint8Array` is a `List Nat`.
* The platform `TextDecoder` (UTF-8, non-fatal) is modelled byte-by-byte by
  the WHATWG UTF-8 decoding algorithm (`utf8Step`); a call
  `td.decode(bs, {stream:true})` is `utf8Run s bs`, and a non-streaming
  `td.decode(bs)` is `utf8DecodeFull s bs` (which flushes and resets).
* The platform `JSON.stringify` / `JSON.parse` builtins are modelled over an
  inductive `Json` whose numbers are integers (IEEE-754 floats are outside
  the model) and whose strings are sequences of Unicode scalar values.
* Effectful React state updates are modelled by explicit state passing; a
  transcript mutation performed through `setHistory` is recorded as an
  explicit `Mutation` value in an append-only trace.
-/

/-! ## UTF-8: encoding and the WHATWG streaming decoder -/

/-- A Unicode scalar value: a code point that is not a surrogate. -/
def ScalarVal (c : Nat) : Prop := c < 0xD800 ∨ (0xE000 ≤ c ∧ c < 0x110000)

instance (c : Nat) : Decidable (ScalarVal c) := by
  unfold ScalarVal; infer_instance

/-- UTF-8 encoding of one scalar value (the standard 1–4 byte forms). -/
def utf8EncodeChar (c : Nat) : List Nat :=
  if c < 0x80 then [c]
  else if c < 0x800 then [0xC0 + c / 64, 0x80 + c % 64]
  else if c < 0x10000 then [0xE0 + c / 4096, 0x80 + c / 64 % 64, 0x80 + c % 64]
  else [0xF0 + c / 262144, 0x80 + c / 4096 % 64, 0x80 + c / 64 % 64, 0x80 + c % 64]

/-- Concatenate a list of byte lists. -/
def flatAll : List (List Nat) → List Nat
  | [] => []
  | x :: xs => x ++ flatAll xs

/-- UTF-8 encoding of a sequence of scalar values. -/
def utf8Encode (cs : List Nat) : List Nat := flatAll (cs.map utf8EncodeChar)

/-- Internal state of a WHATWG UTF-8 decoder (the state a JS `TextDecoder`
keeps between `decode(…, {stream:true})` calls). -/
structure Utf8State where
  codePoint : Nat
  bytesNeeded : Nat
  bytesSeen : Nat
  lowerBoundary : Nat
  upperBoundary : Nat
deriving Repr, DecidableEq

/-- The initial (clean) decoder state. -/
def utf8Init : Utf8State :=
  { codePoint := 0, bytesNeeded := 0, bytesSeen := 0,
    lowerBoundary := 0x80, upperBoundary := 0xBF }

/-- One byte of the WHATWG UTF-8 decode algorithm from the clean state.
For lead bytes in the C2–DF / E0–EF / F0–F4 ranges, `byte & 0x1F` /
`byte & 0xF` / `byte & 0x7` is written as subtraction of the range base,
which is equal on those ranges. -/
def utf8StepFresh (b : Nat) : Utf8State × List Nat :=
  if b < 0x80 then (utf8Init, [b])
  else if 0xC2 ≤ b ∧ b ≤ 0xDF then
    ({ codePoint := b - 0xC0, bytesNeeded := 1, bytesSeen := 0,
       lowerBoundary := 0x80, upperBoundary := 0xBF }, [])
  else if 0xE0 ≤ b ∧ b ≤ 0xEF then
    ({ codePoint := b - 0xE0, bytesNeeded := 2, bytesSeen := 0,
       lowerBoundary := if b = 0xE0 then 0xA0 else 0x80,
       upperBoundary := if b = 0xED then 0x9F else 0xBF }, [])
  else if 0xF0 ≤ b ∧ b ≤ 0xF4 then
    ({ codePoint := b - 0xF0, bytesNeeded := 3, bytesSeen := 0,
       lowerBoundary := if b = 0xF0 then 0x90 else 0x80,
       upperBoundary := if b = 0xF4 then 0x8F else 0xBF }, [])
  else (utf8Init, [0xFFFD])

/-- One byte of the WHATWG UTF-8 decode algorithm: a non-fatal decoder that
emits U+FFFD on errors and, on an invalid continuation byte, reprocesses
that byte from the clean state ("prepend byte to stream"). -/
def utf8Step (s : Utf8State) (b : Nat) : Utf8State × List Nat :=
  if s.bytesNeeded = 0 then utf8StepFresh b
  else if s.lowerBoundary ≤ b ∧ b ≤ s.upperBoundary then
    let cp := s.codePoint * 64 + (b - 0x80)
    if s.bytesSeen + 1 = s.bytesNeeded then (utf8Init, [cp])
    else ({ codePoint := cp, bytesNeeded := s.bytesNeeded,
            bytesSeen := s.bytesSeen + 1,
            lowerBoundary := 0x80, upperBoundary := 0xBF }, [])
  else
    let r := utf8StepFresh b
    (r.1, 0xFFFD :: r.2)

/-- Streaming decode of a byte list: `td.decode(bs, {stream: true})` run
from state `s`, returning the new state and the scalar values produced. -/
def utf8Run (s : Utf8State) : List Nat → Utf8State × List Nat
  | [] => (s, [])
  | b :: bs =>
    let r1 := utf8Step s b
    let r2 := utf8Run r1.1 bs
    (r2.1, r1.2 ++ r2.2)

/-- End-of-input flush: a pending incomplete sequence becomes U+FFFD. -/
def utf8Flush (s : Utf8State) : List Nat :=
  if s.bytesNeeded = 0 then [] else [0xFFFD]

/-- Non-streaming `td.decode(bs)` from state `s`: decode, then flush (the
decoder state resets to `utf8Init` afterwards). -/
def utf8DecodeFull (s : Utf8State) (bs : List Nat) : List Nat :=
  (utf8Run s bs).2 ++ utf8Flush (utf8Run s bs).1

theorem utf8Run_append (s : Utf8State) (a b : List Nat) :
    utf8Run s (a ++ b) =
      ((utf8Run (utf8Run s a).1 b).1,
        (utf8Run s a).2 ++ (utf8Run (utf8Run s a).1 b).2) := by
  induction a generalizing s with
  | nil => simp [utf8Run]
  | cons x xs ih =>
    simp only [List.cons_append, utf8Run, List.append_eq, ih, List.append_assoc]

theorem utf8Run_nil (s : Utf8State) : utf8Run s [] = (s, []) := rfl

theorem utf8Run_cons (s : Utf8State) (x : Nat) (xs : List Nat) :
    utf8Run s (x :: xs) =
      ((utf8Run (utf8Step s x).1 xs).1,
        (utf8Step s x).2 ++ (utf8Run (utf8Step s x).1 xs).2) := rfl

theorem utf8Step_init (b : Nat) : utf8Step utf8Init b = utf8StepFresh b := by
  unfold utf8Step
  rw [if_pos (show utf8Init.bytesNeeded = 0 from rfl)]

theorem utf8StepFresh_ascii (b : Nat) (h : b < 0x80) :
    utf8StepFresh b = (utf8Init, [b]) := by
  unfold utf8StepFresh
  rw [if_pos h]

theorem utf8StepFresh_lead2 (b : Nat) (h1 : 0xC2 ≤ b) (h2 : b ≤ 0xDF) :
    utf8StepFresh b =
      ({ codePoint := b - 0xC0, bytesNeeded := 1, bytesSeen := 0,
         lowerBoundary := 0x80, upperBoundary := 0xBF }, []) := by
  unfold utf8StepFresh
  rw [if_neg (by omega), if_pos ⟨h1, h2⟩]

theorem utf8StepFresh_lead3 (b : Nat) (h1 : 0xE0 ≤ b) (h2 : b ≤ 0xEF) :
    utf8StepFresh b =
      ({ codePoint := b - 0xE0, bytesNeeded := 2, bytesSeen := 0,
         lowerBoundary := if b = 0xE0 then 0xA0 else 0x80,
         upperBoundary := if b = 0xED then 0x9F else 0xBF }, []) := by
  unfold utf8StepFresh
  rw [if_neg (by omega), if_neg (by omega), if_pos ⟨h1, h2⟩]

theorem utf8StepFresh_lead4 (b : Nat) (h1 : 0xF0 ≤ b) (h2 : b ≤ 0xF4) :
    utf8StepFresh b =
      ({ codePoint := b - 0xF0, bytesNeeded := 3, bytesSeen := 0,
         lowerBoundary := if b = 0xF0 then 0x90 else 0x80,
         upperBoundary := if b = 0xF4 then 0x8F else 0xBF }, []) := by
  unfold utf8StepFresh
  rw [if_neg (by omega), if_neg (by omega), if_neg (by omega), if_pos ⟨h1, h2⟩]

theorem utf8Step_cont_last (s : Utf8State) (b : Nat)
    (hn : s.bytesNeeded ≠ 0) (hl : s.lowerBoundary ≤ b) (hu : b ≤ s.upperBoundary)
    (hlast : s.bytesSeen + 1 = s.bytesNeeded) :
    utf8Step s b = (utf8Init, [s.codePoint * 64 + (b - 0x80)]) := by
  unfold utf8Step
  rw [if_neg hn, if_pos ⟨hl, hu⟩, if_pos hlast]

theorem utf8Step_cont_more (s : Utf8State) (b : Nat)
    (hn : s.bytesNeeded ≠ 0) (hl : s.lowerBoundary ≤ b) (hu : b ≤ s.upperBoundary)
    (hmore : s.bytesSeen + 1 ≠ s.bytesNeeded) :
    utf8Step s b =
      ({ codePoint := s.codePoint * 64 + (b - 0x80), bytesNeeded := s.bytesNeeded,
         bytesSeen := s.bytesSeen + 1,
         lowerBoundary := 0x80, upperBoundary := 0xBF }, []) := by
  unfold utf8Step
  rw [if_neg hn, if_pos ⟨hl, hu⟩, if_neg hmore]

theorem utf8Run_encodeChar (c : Nat) (h : ScalarVal c) :
    utf8Run utf8Init (utf8EncodeChar c) = (utf8Init, [c]) := by
  rcases Nat.lt_or_ge c 0x80 with h1 | h1
  · -- 1-byte form
    rw [show utf8EncodeChar c = [c] from by unfold utf8EncodeChar; rw [if_pos h1]]
    rw [utf8Run_cons, utf8Step_init, utf8StepFresh_ascii c h1, utf8Run_nil]
    simp
  rcases Nat.lt_or_ge c 0x800 with h2 | h2
  · -- 2-byte form
    obtain ⟨q, r, hr, rfl⟩ : ∃ q r, r < 64 ∧ c = 64 * q + r :=
      ⟨c / 64, c % 64, Nat.mod_lt _ (by norm_num), (Nat.div_add_mod c 64).symm⟩
    have hdiv : (64 * q + r) / 64 = q := by omega
    have hmod : (64 * q + r) % 64 = r := by omega
    rw [show utf8EncodeChar (64 * q + r) = [0xC0 + q, 0x80 + r] from by
      unfold utf8EncodeChar
      rw [if_neg (by omega), if_pos (by omega), hdiv, hmod]]
    rw [utf8Run_cons, utf8Step_init, utf8StepFresh_lead2 _ (by omega) (by omega)]
    rw [utf8Run_cons,
      utf8Step_cont_last _ _ (by simp) (by first | (simp; try omega) | omega) (by first | (simp; try omega) | omega) (by simp),
      utf8Run_nil]
    simp <;> omega
  rcases Nat.lt_or_ge c 0x10000 with h3 | h3
  · -- 3-byte form
    obtain ⟨a, b2, r, hb2, hr, rfl⟩ :
        ∃ a b2 r, b2 < 64 ∧ r < 64 ∧ c = 4096 * a + 64 * b2 + r := by
      refine ⟨c / 4096, c / 64 % 64, c % 64, Nat.mod_lt _ (by norm_num),
        Nat.mod_lt _ (by norm_num), ?_⟩
      omega
    have ha : a ≤ 15 := by omega
    have hd1 : (4096 * a + 64 * b2 + r) / 4096 = a := by omega
    have hd2 : (4096 * a + 64 * b2 + r) / 64 % 64 = b2 := by
      have e : (4096 * a + 64 * b2 + r) / 64 = 64 * a + b2 := by omega
      rw [e]; omega
    have hd3 : (4096 * a + 64 * b2 + r) % 64 = r := by omega
    have hsur : 4096 * a + 64 * b2 + r < 0xD800 ∨ 0xE000 ≤ 4096 * a + 64 * b2 + r := by
      rcases h with h | h
      · exact Or.inl h
      · exact Or.inr h.1
    rw [show utf8EncodeChar (4096 * a + 64 * b2 + r) =
        [0xE0 + a, 0x80 + b2, 0x80 + r] from by
      unfold utf8EncodeChar
      rw [if_neg (by omega), if_neg (by omega), if_pos (by omega), hd1, hd2, hd3]]
    rw [utf8Run_cons, utf8Step_init, utf8StepFresh_lead3 _ (by omega) (by omega)]
    rw [utf8Run_cons,
      utf8Step_cont_more _ _ (by simp) (by simp; try split <;> omega)
        (by simp; try split <;> omega) (by simp)]
    rw [utf8Run_cons,
      utf8Step_cont_last _ _ (by simp) (by simp) (by first | (simp; try omega) | omega) (by simp),
      utf8Run_nil]
    simp <;> omega
  · -- 4-byte form
    obtain ⟨a, b2, b3, r, hb2, hb3, hr, rfl⟩ :
        ∃ a b2 b3 r, b2 < 64 ∧ b3 < 64 ∧ r < 64 ∧
          c = 262144 * a + 4096 * b2 + 64 * b3 + r := by
      refine ⟨c / 262144, c / 4096 % 64, c / 64 % 64, c % 64,
        Nat.mod_lt _ (by norm_num), Nat.mod_lt _ (by norm_num),
        Nat.mod_lt _ (by norm_num), ?_⟩
      omega
    have hc : 262144 * a + 4096 * b2 + 64 * b3 + r < 0x110000 := by
      rcases h with h | h
      · omega
      · omega
    have ha : a ≤ 4 := by omega
    have hd1 : (262144 * a + 4096 * b2 + 64 * b3 + r) / 262144 = a := by omega
    have hd2 : (262144 * a + 4096 * b2 + 64 * b3 + r) / 4096 % 64 = b2 := by
      have e : (262144 * a + 4096 * b2 + 64 * b3 + r) / 4096 = 64 * a + b2 := by omega
      rw [e]; omega
    have hd3 : (262144 * a + 4096 * b2 + 64 * b3 + r) / 64 % 64 = b3 := by
      have e : (262144 * a + 4096 * b2 + 64 * b3 + r) / 64 =
          64 * (64 * a + b2) + b3 := by omega
      rw [e]; omega
    have hd4 : (262144 * a + 4096 * b2 + 64 * b3 + r) % 64 = r := by omega
    rw [show utf8EncodeChar (262144 * a + 4096 * b2 + 64 * b3 + r) =
        [0xF0 + a, 0x80 + b2, 0x80 + b3, 0x80 + r] from by
      unfold utf8EncodeChar
      rw [if_neg (by omega), if_neg (by omega), if_neg (by omega), hd1, hd2, hd3, hd4]]
    rw [utf8Run_cons, utf8Step_init, utf8StepFresh_lead4 _ (by omega) (by omega)]
    rw [utf8Run_cons,
      utf8Step_cont_more _ _ (by simp) (by simp; try split <;> omega)
        (by simp; try split <;> omega) (by simp)]
    rw [utf8Run_cons,
      utf8Step_cont_more _ _ (by simp) (by simp) (by first | (simp; try omega) | omega) (by simp)]
    rw [utf8Run_cons,
      utf8Step_cont_last _ _ (by simp) (by simp) (by first | (simp; try omega) | omega) (by simp),
      utf8Run_nil]
    simp <;> omega

theorem utf8Run_encode (cs : List Nat) (h : ∀ c ∈ cs, ScalarVal c) :
    utf8Run utf8Init (utf8Encode cs) = (utf8Init, cs) := by
  induction cs with
  | nil => simp [utf8Encode, flatAll, utf8Run]
  | cons c cs ih =>
    have hc : ScalarVal c := h c (by simp)
    have hcs : ∀ x ∈ cs, ScalarVal x := fun x hx => h x (by simp [hx])
    show utf8Run utf8Init (utf8EncodeChar c ++ utf8Encode cs) = _
    rw [utf8Run_append, utf8Run_encodeChar c hc, ih hcs]
    simp

/-! ## JSON: a model of the platform `JSON.stringify` / `JSON.parse` builtins

The decoder calls `JSON.parse` on the decoded metadata preamble, and claim
C2 quantifies over "JSON objects M" serialized by the backend.  `Json`
models JSON values whose numbers are integers with at most 53 bits (exactly
representable in an IEEE-754 double, so `JSON.stringify` prints them as
plain digit strings) and whose strings are sequences of Unicode scalar
values. -/

inductive Json where
  | jnull
  | jbool (b : Bool)
  | jnum (n : Int)
  | jstr (s : List Nat)
  | jarr (elems : List Json)
  | jobj (fields : List (List Nat × Json))
deriving Repr

/-- Lowercase hex digit, as emitted by `JSON.stringify` in `\u00xx` escapes. -/
def hexDigitChar (n : Nat) : Nat := if n < 10 then 0x30 + n else 0x57 + n

/-- Decimal digits of a natural number, most significant first. -/
def natToDigits (n : Nat) : List Nat :=
  if n < 10 then [0x30 + n]
  else natToDigits (n / 10) ++ [0x30 + n % 10]
termination_by n
decreasing_by exact Nat.div_lt_self (by omega) (by norm_num)

/-- The decimal notation of an integer, as `JSON.stringify` prints an
integer-valued number. -/
def intToChars (n : Int) : List Nat :=
  if n < 0 then 0x2D :: natToDigits n.natAbs else natToDigits n.natAbs

/-- `JSON.stringify` escaping of one string character: `"` and `\` are
backslash-escaped, the control characters BS/TAB/LF/FF/CR get their short
escapes, other control characters become `\u00xx`, everything else is
emitted verbatim. -/
def escapeChar (c : Nat) : List Nat :=
  if c = 0x22 then [0x5C, 0x22]
  else if c = 0x5C then [0x5C, 0x5C]
  else if c = 0x08 then [0x5C, 0x62]
  else if c = 0x09 then [0x5C, 0x74]
  else if c = 0x0A then [0x5C, 0x6E]
  else if c = 0x0C then [0x5C, 0x66]
  else if c = 0x0D then [0x5C, 0x72]
  else if c < 0x20 then [0x5C, 0x75, 0x30, 0x30, hexDigitChar (c / 16), hexDigitChar (c % 16)]
  else [c]

/-- A JSON string literal: quote, escaped characters, quote. -/
def strLit (s : List Nat) : List Nat :=
  0x22 :: flatAll (s.map escapeChar) ++ [0x22]

mutual

/-- `JSON.stringify` (no spacing), producing a sequence of scalar values. -/
def jsonStringify : Json → List Nat
  | .jnull => [0x6E, 0x75, 0x6C, 0x6C]
  | .jbool true => [0x74, 0x72, 0x75, 0x65]
  | .jbool false => [0x66, 0x61, 0x6C, 0x73, 0x65]
  | .jnum n => intToChars n
  | .jstr s => strLit s
  | .jarr es => 0x5B :: (stringifyElems es ++ [0x5D])
  | .jobj fs => 0x7B :: (stringifyFields fs ++ [0x7D])

/-- Comma-separated serialization of array elements. -/
def stringifyElems : List Json → List Nat
  | [] => []
  | [e] => jsonStringify e
  | e :: rest => jsonStringify e ++ 0x2C :: stringifyElems rest

/-- Comma-separated serialization of object fields. -/
def stringifyFields : List (List Nat × Json) → List Nat
  | [] => []
  | [(k, v)] => strLit k ++ 0x3A :: jsonStringify v
  | (k, v) :: rest => strLit k ++ 0x3A :: jsonStringify v ++ 0x2C :: stringifyFields rest

end

/-- JSON whitespace skipping (space, tab, LF, CR). -/
def skipWs : List Nat → List Nat
  | [] => []
  | c :: r =>
    if c = 0x20 ∨ c = 0x09 ∨ c = 0x0A ∨ c = 0x0D then skipWs r else c :: r

/-- Value of one hex digit character. -/
def hexVal (c : Nat) : Option Nat :=
  if 0x30 ≤ c ∧ c ≤ 0x39 then some (c - 0x30)
  else if 0x61 ≤ c ∧ c ≤ 0x66 then some (c - 0x57)
  else if 0x41 ≤ c ∧ c ≤ 0x46 then some (c - 0x37)
  else none

/-- Parse the body of a JSON string literal (after the opening quote),
returning the decoded characters and the rest of the input.  `\uXXXX`
escapes are taken at face value (surrogate-pair combination is outside the
scalar-value model; `jsonStringify` only emits `\u00xx`). -/
def parseStringBody : List Nat → Option (List Nat × List Nat)
  | [] => none
  | 0x22 :: r => some ([], r)
  | 0x5C :: 0x22 :: r => (parseStringBody r).map (fun p => (0x22 :: p.1, p.2))
  | 0x5C :: 0x5C :: r => (parseStringBody r).map (fun p => (0x5C :: p.1, p.2))
  | 0x5C :: 0x2F :: r => (parseStringBody r).map (fun p => (0x2F :: p.1, p.2))
  | 0x5C :: 0x62 :: r => (parseStringBody r).map (fun p => (0x08 :: p.1, p.2))
  | 0x5C :: 0x66 :: r => (parseStringBody r).map (fun p => (0x0C :: p.1, p.2))
  | 0x5C :: 0x6E :: r => (parseStringBody r).map (fun p => (0x0A :: p.1, p.2))
  | 0x5C :: 0x72 :: r => (parseStringBody r).map (fun p => (0x0D :: p.1, p.2))
  | 0x5C :: 0x74 :: r => (parseStringBody r).map (fun p => (0x09 :: p.1, p.2))
  | 0x5C :: 0x75 :: h1 :: h2 :: h3 :: h4 :: r =>
    (match hexVal h1, hexVal h2, hexVal h3, hexVal h4 with
     | some a, some b, some c, some d =>
       (parseStringBody r).map (fun p => ((a * 4096 + b * 256 + c * 16 + d) :: p.1, p.2))
     | _, _, _, _ => none)
  | 0x5C :: _ => none
  | c :: r => if c < 0x20 then none else (parseStringBody r).map (fun p => (c :: p.1, p.2))

/-- ASCII decimal digit test. -/
def isDigitChar (c : Nat) : Bool := decide (0x30 ≤ c) && decide (c ≤ 0x39)

/-- Numeric value of a digit string. -/
def digitsToNat (ds : List Nat) : Nat := ds.foldl (fun a d => a * 10 + (d - 0x30)) 0

/-- Parse one or more decimal digits. -/
def parseDigits (s : List Nat) : Option (Nat × List Nat) :=
  match s.takeWhile isDigitChar with
  | [] => none
  | ds => some (digitsToNat ds, s.dropWhile isDigitChar)

/-- Parse an integer JSON number (the fragment of JSON numbers this model
covers; fractional and exponent forms are outside the integer model). -/
def parseNumberVal (s : List Nat) : Option (Json × List Nat) :=
  match s with
  | 0x2D :: r => (parseDigits r).map (fun p => (.jnum (-(p.1 : Int)), p.2))
  | _ => (parseDigits s).map (fun p => (.jnum (p.1 : Int), p.2))

mutual

/-- Fuel-indexed recursive-descent JSON value parser (model of
`JSON.parse`); the fuel bounds the nesting depth of parser calls. -/
def parseValue : Nat → List Nat → Option (Json × List Nat)
  | 0, _ => none
  | fuel + 1, s =>
    match skipWs s with
    | 0x6E :: 0x75 :: 0x6C :: 0x6C :: r => some (.jnull, r)
    | 0x74 :: 0x72 :: 0x75 :: 0x65 :: r => some (.jbool true, r)
    | 0x66 :: 0x61 :: 0x6C :: 0x73 :: 0x65 :: r => some (.jbool false, r)
    | 0x22 :: r => (parseStringBody r).map (fun p => (.jstr p.1, p.2))
    | 0x5B :: r => parseAfterBracket fuel (skipWs r)
    | 0x7B :: r => parseAfterBrace fuel (skipWs r)
    | r => parseNumberVal r

/-- After `[`: either an immediate `]` (empty array) or an element list. -/
def parseAfterBracket : Nat → List Nat → Option (Json × List Nat)
  | _, 0x5D :: r2 => some (.jarr [], r2)
  | fuel, r1 => (parseElemsTail fuel r1).map (fun p => (.jarr p.1, p.2))

/-- After `{`: either an immediate `}` (empty object) or a field list. -/
def parseAfterBrace : Nat → List Nat → Option (Json × List Nat)
  | _, 0x7D :: r2 => some (.jobj [], r2)
  | fuel, r1 => (parseFieldsTail fuel r1).map (fun p => (.jobj p.1, p.2))

/-- Parse a non-empty comma-separated element list followed by `]`. -/
def parseElemsTail : Nat → List Nat → Option (List Json × List Nat)
  | 0, _ => none
  | fuel + 1, s =>
    match parseValue fuel s with
    | none => none
    | some (v, r) => elemsCont fuel v (skipWs r)

/-- After one array element: `,` continues the list, `]` closes it. -/
def elemsCont : Nat → Json → List Nat → Option (List Json × List Nat)
  | fuel, v, 0x2C :: r2 => (parseElemsTail fuel r2).map (fun p => (v :: p.1, p.2))
  | _, v, 0x5D :: r2 => some ([v], r2)
  | _, _, _ => none

/-- Parse a non-empty comma-separated field list followed by `}`. -/
def parseFieldsTail : Nat → List Nat → Option (List (List Nat × Json) × List Nat)
  | 0, _ => none
  | fuel + 1, s =>
    match skipWs s with
    | 0x22 :: r =>
      (match parseStringBody r with
       | none => none
       | some (k, r1) => fieldsColon fuel k (skipWs r1))
    | _ => none

/-- After a field key: expect `:` and then the field value. -/
def fieldsColon : Nat → List Nat → List Nat → Option (List (List Nat × Json) × List Nat)
  | fuel, k, 0x3A :: r2 =>
    (match parseValue fuel r2 with
     | none => none
     | some (v, r3) => fieldsCont fuel k v (skipWs r3))
  | _, _, _ => none

/-- After one field: `,` continues the list, `}` closes it. -/
def fieldsCont : Nat → List Nat → Json → List Nat → Option (List (List Nat × Json) × List Nat)
  | fuel, k, v, 0x2C :: r4 => (parseFieldsTail fuel r4).map (fun p => ((k, v) :: p.1, p.2))
  | _, k, v, 0x7D :: r4 => some ([(k, v)], r4)
  | _, _, _, _ => none

end

/-- `JSON.parse`: parse one value and require only whitespace after it.
The fuel `s.length + 1` dominates the parser's nesting depth, since every
nested `parseValue` call strictly follows at least one consumed character. -/
def jsonParse (s : List Nat) : Option Json :=
  match parseValue (s.length + 1) s with
  | some (j, r) => if skipWs r = [] then some j else none
  | none => none

mutual

/-- Well-formedness of a modelled JSON value: string contents and object
keys are scalar values, object keys are distinct (a JS object cannot hold
duplicate keys), and numbers are exactly representable in a double. -/
def JsonValid : Json → Prop
  | .jnull => True
  | .jbool _ => True
  | .jnum n => n.natAbs ≤ 2 ^ 53
  | .jstr s => ∀ c ∈ s, ScalarVal c
  | .jarr es => JsonValidElems es
  | .jobj fs => JsonValidFields fs ∧ (fs.map Prod.fst).Nodup

/-- All elements well-formed. -/
def JsonValidElems : List Json → Prop
  | [] => True
  | e :: rest => JsonValid e ∧ JsonValidElems rest

/-- All keys scalar and all values well-formed. -/
def JsonValidFields : List (List Nat × Json) → Prop
  | [] => True
  | (k, v) :: rest => (∀ c ∈ k, ScalarVal c) ∧ JsonValid v ∧ JsonValidFields rest

end

mutual

/-- Nesting depth of a JSON value: an upper bound for the parser fuel. -/
def jdepth : Json → Nat
  | .jnull => 1
  | .jbool _ => 1
  | .jnum _ => 1
  | .jstr _ => 1
  | .jarr es => 1 + jdepthElems es
  | .jobj fs => 1 + jdepthFields fs

/-- Maximum depth of array elements. -/
def jdepthElems : List Json → Nat
  | [] => 0
  | e :: rest => max (jdepth e) (jdepthElems rest)

/-- Maximum depth of object field values. -/
def jdepthFields : List (List Nat × Json) → Nat
  | [] => 0
  | (_, v) :: rest => max (jdepth v) (jdepthFields rest)

end

/-! ### Round-trip lemmas: `jsonParse` inverts `jsonStringify` -/

theorem skipWs_nonws (c : Nat) (t : List Nat)
    (h : c ≠ 0x20 ∧ c ≠ 0x09 ∧ c ≠ 0x0A ∧ c ≠ 0x0D) :
    skipWs (c :: t) = c :: t := by
  unfold skipWs
  rw [if_neg (by omega)]

theorem natToDigits_head (n : Nat) :
    ∃ d t, natToDigits n = d :: t ∧ 0x30 ≤ d ∧ d ≤ 0x39 := by
  induction n using Nat.strong_induction_on with
  | _ n ih =>
    by_cases h : n < 10
    · exact ⟨0x30 + n, [], by rw [natToDigits, if_pos h], by omega, by omega⟩
    · obtain ⟨d, t, hd, h1, h2⟩ := ih (n / 10) (Nat.div_lt_self (by omega) (by norm_num))
      exact ⟨d, t ++ [0x30 + n % 10], by rw [natToDigits, if_neg h, hd]; rfl, h1, h2⟩

theorem natToDigits_digits (n : Nat) :
    ∀ d ∈ natToDigits n, isDigitChar d = true := by
  induction n using Nat.strong_induction_on with
  | _ n ih =>
    by_cases h : n < 10
    · rw [natToDigits, if_pos h]
      intro d hd
      simp at hd
      simp [isDigitChar, hd]
      omega
    · rw [natToDigits, if_neg h]
      intro d hd
      rcases List.mem_append.1 hd with hd | hd
      · exact ih (n / 10) (Nat.div_lt_self (by omega) (by norm_num)) d hd
      · simp at hd
        simp [isDigitChar, hd]
        omega

theorem digitsToNat_append (xs : List Nat) (d : Nat) :
    digitsToNat (xs ++ [d]) = digitsToNat xs * 10 + (d - 0x30) := by
  unfold digitsToNat
  rw [List.foldl_append]
  rfl

theorem digitsToNat_natToDigits (n : Nat) :
    digitsToNat (natToDigits n) = n := by
  induction n using Nat.strong_induction_on with
  | _ n ih =>
    by_cases h : n < 10
    · rw [natToDigits, if_pos h]
      simp [digitsToNat]
    · rw [natToDigits, if_neg h, digitsToNat_append,
        ih (n / 10) (Nat.div_lt_self (by omega) (by norm_num))]
      omega

theorem takeWhile_all_append (p : Nat → Bool) (ds rest : List Nat)
    (hds : ∀ d ∈ ds, p d = true)
    (hrest : match rest with | [] => True | c :: _ => p c = false) :
    (ds ++ rest).takeWhile p = ds ∧ (ds ++ rest).dropWhile p = rest := by
  induction ds with
  | nil =>
    simp only [List.nil_append]
    cases rest with
    | nil => simp
    | cons c t =>
      simp only at hrest
      simp [List.takeWhile, List.dropWhile, hrest]
  | cons d ds ih =>
    have hd : p d = true := hds d (by simp)
    have ih' := ih (fun x hx => hds x (by simp [hx]))
    simp [List.takeWhile, List.dropWhile, hd, ih'.1, ih'.2]

/-- Digit-terminator: the input that follows a serialized number never
starts with another digit. -/
def numStopper : List Nat → Prop
  | [] => True
  | c :: _ => isDigitChar c = false

theorem parseDigits_natToDigits (n : Nat) (rest : List Nat) (h : numStopper rest) :
    parseDigits (natToDigits n ++ rest) = some (n, rest) := by
  have htw := takeWhile_all_append isDigitChar (natToDigits n) rest
    (natToDigits_digits n) (by cases rest with | nil => trivial | cons c t => exact h)
  obtain ⟨d, t, hd, _, _⟩ := natToDigits_head n
  unfold parseDigits
  rw [htw.1, htw.2]
  rw [hd]
  simp only []
  rw [← hd, digitsToNat_natToDigits]

theorem parseNumberVal_not_minus (d : Nat) (s' : List Nat) (hd : d ≠ 0x2D) :
    parseNumberVal (d :: s') =
      (parseDigits (d :: s')).map (fun p => (.jnum (p.1 : Int), p.2)) := by
  unfold parseNumberVal
  split
  · rename_i r heq
    injection heq with e1 e2
    omega
  · rfl

theorem parseNumberVal_intToChars (n : Int) (rest : List Nat) (h : numStopper rest) :
    parseNumberVal (intToChars n ++ rest) = some (.jnum n, rest) := by
  by_cases hn : n < 0
  · rw [show intToChars n ++ rest = 0x2D :: (natToDigits n.natAbs ++ rest) from by
      unfold intToChars; rw [if_pos hn]; rfl]
    rw [show parseNumberVal (0x2D :: (natToDigits n.natAbs ++ rest)) =
        (parseDigits (natToDigits n.natAbs ++ rest)).map
          (fun p => (.jnum (-(p.1 : Int)), p.2)) from rfl]
    rw [parseDigits_natToDigits n.natAbs rest h]
    have e : -((n.natAbs : Nat) : Int) = n := by omega
    simp [e]
    rw [abs_of_neg hn, neg_neg]
  · rw [show intToChars n = natToDigits n.natAbs from by
      unfold intToChars; rw [if_neg hn]]
    obtain ⟨d, t, hd, h1, h2⟩ := natToDigits_head n.natAbs
    rw [hd, show d :: t ++ rest = d :: (t ++ rest) from rfl,
      parseNumberVal_not_minus d (t ++ rest) (by omega),
      show d :: (t ++ rest) = (d :: t) ++ rest from rfl, ← hd,
      parseDigits_natToDigits n.natAbs rest h]
    have e : ((n.natAbs : Nat) : Int) = n := by omega
    simp [e]

theorem hexVal_hexDigitChar (x : Nat) (h : x < 16) :
    hexVal (hexDigitChar x) = some x := by
  unfold hexVal hexDigitChar
  split_ifs <;> first | omega | (congr 1; omega)

set_option maxHeartbeats 1000000 in
theorem parseStringBody_raw (c : Nat) (X : List Nat)
    (h1 : c ≠ 0x22) (h2 : c ≠ 0x5C) (h3 : ¬ c < 0x20) :
    parseStringBody (c :: X) = (parseStringBody X).map (fun p => (c :: p.1, p.2)) := by
  unfold parseStringBody
  split
  all_goals first
    | (simp_all; done)
    | (rename_i heq
       injection heq with ec er
       subst ec
       subst er
       rw [if_neg (by omega)]
       exact congrArg _ (parseStringBody.eq_def X))

theorem parseStringBody_u (a b c d : Nat) (X : List Nat) :
    parseStringBody (0x5C :: 0x75 :: a :: b :: c :: d :: X) =
      (match hexVal a, hexVal b, hexVal c, hexVal d with
       | some va, some vb, some vc, some vd =>
         (parseStringBody X).map
           (fun p => ((va * 4096 + vb * 256 + vc * 16 + vd) :: p.1, p.2))
       | _, _, _, _ => none) := rfl

theorem parseStringBody_escaped (s rest : List Nat) :
    parseStringBody (flatAll (s.map escapeChar) ++ 0x22 :: rest) = some (s, rest) := by
  induction s with
  | nil => rfl
  | cons c cs ih =>
    have hsplit : flatAll ((c :: cs).map escapeChar) ++ 0x22 :: rest
        = escapeChar c ++ (flatAll (cs.map escapeChar) ++ 0x22 :: rest) := by
      show (escapeChar c ++ flatAll (cs.map escapeChar)) ++ 0x22 :: rest = _
      rw [List.append_assoc]
    rw [hsplit]
    by_cases e1 : c = 0x22
    · subst e1
      rw [show escapeChar 0x22 = [0x5C, 0x22] from rfl]
      show parseStringBody (0x5C :: 0x22 :: (flatAll (cs.map escapeChar) ++ 0x22 :: rest)) = _
      rw [show ∀ X, parseStringBody (0x5C :: 0x22 :: X) =
          (parseStringBody X).map (fun p => (0x22 :: p.1, p.2)) from fun X => rfl, ih]
      rfl
    by_cases e2 : c = 0x5C
    · subst e2
      rw [show escapeChar 0x5C = [0x5C, 0x5C] from rfl]
      show parseStringBody (0x5C :: 0x5C :: (flatAll (cs.map escapeChar) ++ 0x22 :: rest)) = _
      rw [show ∀ X, parseStringBody (0x5C :: 0x5C :: X) =
          (parseStringBody X).map (fun p => (0x5C :: p.1, p.2)) from fun X => rfl, ih]
      rfl
    by_cases e3 : c = 0x08
    · subst e3
      rw [show escapeChar 0x08 = [0x5C, 0x62] from rfl]
      show parseStringBody (0x5C :: 0x62 :: (flatAll (cs.map escapeChar) ++ 0x22 :: rest)) = _
      rw [show ∀ X, parseStringBody (0x5C :: 0x62 :: X) =
          (parseStringBody X).map (fun p => (0x08 :: p.1, p.2)) from fun X => rfl, ih]
      rfl
    by_cases e4 : c = 0x09
    · subst e4
      rw [show escapeChar 0x09 = [0x5C, 0x74] from rfl]
      show parseStringBody (0x5C :: 0x74 :: (flatAll (cs.map escapeChar) ++ 0x22 :: rest)) = _
      rw [show ∀ X, parseStringBody (0x5C :: 0x74 :: X) =
          (parseStringBody X).map (fun p => (0x09 :: p.1, p.2)) from fun X => rfl, ih]
      rfl
    by_cases e5 : c = 0x0A
    · subst e5
      rw [show escapeChar 0x0A = [0x5C, 0x6E] from rfl]
      show parseStringBody (0x5C :: 0x6E :: (flatAll (cs.map escapeChar) ++ 0x22 :: rest)) = _
      rw [show ∀ X, parseStringBody (0x5C :: 0x6E :: X) =
          (parseStringBody X).map (fun p => (0x0A :: p.1, p.2)) from fun X => rfl, ih]
      rfl
    by_cases e6 : c = 0x0C
    · subst e6
      rw [show escapeChar 0x0C = [0x5C, 0x66] from rfl]
      show parseStringBody (0x5C :: 0x66 :: (flatAll (cs.map escapeChar) ++ 0x22 :: rest)) = _
      rw [show ∀ X, parseStringBody (0x5C :: 0x66 :: X) =
          (parseStringBody X).map (fun p => (0x0C :: p.1, p.2)) from fun X => rfl, ih]
      rfl
    by_cases e7 : c = 0x0D
    · subst e7
      rw [show escapeChar 0x0D = [0x5C, 0x72] from rfl]
      show parseStringBody (0x5C :: 0x72 :: (flatAll (cs.map escapeChar) ++ 0x22 :: rest)) = _
      rw [show ∀ X, parseStringBody (0x5C :: 0x72 :: X) =
          (parseStringBody X).map (fun p => (0x0D :: p.1, p.2)) from fun X => rfl, ih]
      rfl
    by_cases e8 : c < 0x20
    · rw [show escapeChar c =
          [0x5C, 0x75, 0x30, 0x30, hexDigitChar (c / 16), hexDigitChar (c % 16)] from by
        unfold escapeChar
        rw [if_neg e1, if_neg e2, if_neg e3, if_neg e4, if_neg e5, if_neg e6,
          if_neg e7, if_pos e8]]
      show parseStringBody (0x5C :: 0x75 :: 0x30 :: 0x30 :: hexDigitChar (c / 16) ::
        hexDigitChar (c % 16) :: (flatAll (cs.map escapeChar) ++ 0x22 :: rest)) = _
      rw [parseStringBody_u, hexVal_hexDigitChar (c / 16) (by omega),
        hexVal_hexDigitChar (c % 16) (by omega)]
      rw [show hexVal 0x30 = some 0 from rfl]
      simp only []
      rw [show 0 * 4096 + 0 * 256 + c / 16 * 16 + c % 16 = c from by omega, ih]
      rfl
    · rw [show escapeChar c = [c] from by
        unfold escapeChar
        rw [if_neg e1, if_neg e2, if_neg e3, if_neg e4, if_neg e5, if_neg e6,
          if_neg e7, if_neg e8]]
      show parseStringBody (c :: (flatAll (cs.map escapeChar) ++ 0x22 :: rest)) = _
      rw [parseStringBody_raw c _ e1 e2 e8, ih]
      rfl

/-- The possible first characters of a serialized JSON value. -/
def jsonHeadOk (c : Nat) : Prop :=
  c = 0x6E ∨ c = 0x74 ∨ c = 0x66 ∨ c = 0x22 ∨ c = 0x5B ∨ c = 0x7B ∨ c = 0x2D ∨
    (0x30 ≤ c ∧ c ≤ 0x39)

theorem intToChars_head (n : Int) :
    ∃ c t, intToChars n = c :: t ∧ (c = 0x2D ∨ (0x30 ≤ c ∧ c ≤ 0x39)) := by
  unfold intToChars
  split
  · exact ⟨0x2D, natToDigits n.natAbs, rfl, Or.inl rfl⟩
  · obtain ⟨d, t, hd, h1, h2⟩ := natToDigits_head n.natAbs
    exact ⟨d, t, hd, Or.inr ⟨h1, h2⟩⟩

theorem jsonStringify_head (j : Json) :
    ∃ c t, jsonStringify j = c :: t ∧ jsonHeadOk c := by
  cases j with
  | jnull => exact ⟨0x6E, _, rfl, Or.inl rfl⟩
  | jbool b =>
    cases b with
    | true => exact ⟨0x74, _, rfl, Or.inr (Or.inl rfl)⟩
    | false => exact ⟨0x66, _, rfl, Or.inr (Or.inr (Or.inl rfl))⟩
  | jnum n =>
    obtain ⟨c, t, hct, hc⟩ := intToChars_head n
    refine ⟨c, t, hct, ?_⟩
    rcases hc with hc | hc
    · exact Or.inr (Or.inr (Or.inr (Or.inr (Or.inr (Or.inr (Or.inl hc))))))
    · exact Or.inr (Or.inr (Or.inr (Or.inr (Or.inr (Or.inr (Or.inr hc))))))
  | jstr s =>
    exact ⟨0x22, _, rfl, Or.inr (Or.inr (Or.inr (Or.inl rfl)))⟩
  | jarr es =>
    exact ⟨0x5B, _, rfl, Or.inr (Or.inr (Or.inr (Or.inr (Or.inl rfl))))⟩
  | jobj fs =>
    exact ⟨0x7B, _, rfl, Or.inr (Or.inr (Or.inr (Or.inr (Or.inr (Or.inl rfl)))))⟩

theorem stringifyElems_head (e : Json) (es : List Json) :
    ∃ c t, stringifyElems (e :: es) = c :: t ∧ jsonHeadOk c := by
  obtain ⟨c, t, hct, hc⟩ := jsonStringify_head e
  cases es with
  | nil => exact ⟨c, t, by rw [show stringifyElems [e] = jsonStringify e from rfl, hct], hc⟩
  | cons e' es' =>
    refine ⟨c, t ++ 0x2C :: stringifyElems (e' :: es'), ?_, hc⟩
    rw [show stringifyElems (e :: e' :: es') =
      jsonStringify e ++ 0x2C :: stringifyElems (e' :: es') from rfl, hct]
    rfl

theorem stringifyFields_head (kv : List Nat × Json) (fs : List (List Nat × Json)) :
    ∃ t, stringifyFields (kv :: fs) = 0x22 :: t := by
  obtain ⟨k, v⟩ := kv
  cases fs with
  | nil => exact ⟨_, by rw [show stringifyFields [(k, v)] = strLit k ++ 0x3A :: jsonStringify v from rfl]; rfl⟩
  | cons kv' fs' => exact ⟨_, by rw [show stringifyFields ((k, v) :: kv' :: fs') =
      strLit k ++ 0x3A :: jsonStringify v ++ 0x2C :: stringifyFields (kv' :: fs') from rfl]; rfl⟩

mutual

/-- Fuel needed by `parseValue` to parse the serialization of a value. -/
def jfuel : Json → Nat
  | .jarr es => 1 + jfuelElems es
  | .jobj fs => 1 + jfuelFields fs
  | _ => 1

/-- Fuel needed by `parseElemsTail` for a serialized element list. -/
def jfuelElems : List Json → Nat
  | [] => 0
  | e :: rest => 1 + max (jfuel e) (jfuelElems rest)

/-- Fuel needed by `parseFieldsTail` for a serialized field list. -/
def jfuelFields : List (List Nat × Json) → Nat
  | [] => 0
  | (_, v) :: rest => 1 + max (jfuel v) (jfuelFields rest)

end

theorem jfuel_pos (j : Json) : 1 ≤ jfuel j := by
  cases j <;> simp [jfuel]

theorem jsonStringify_length_pos (j : Json) : 1 ≤ (jsonStringify j).length := by
  obtain ⟨c, t, hct, _⟩ := jsonStringify_head j
  rw [hct]
  simp

mutual

theorem jfuel_le_length : ∀ (j : Json), jfuel j ≤ (jsonStringify j).length
  | .jnull => jsonStringify_length_pos .jnull
  | .jbool b => jsonStringify_length_pos (.jbool b)
  | .jnum n => jsonStringify_length_pos (.jnum n)
  | .jstr s => jsonStringify_length_pos (.jstr s)
  | .jarr es => by
    have h := jfuelElems_le_length es
    show 1 + jfuelElems es ≤ (0x5B :: (stringifyElems es ++ [0x5D])).length
    simp
    omega
  | .jobj fs => by
    have h := jfuelFields_le_length fs
    show 1 + jfuelFields fs ≤ (0x7B :: (stringifyFields fs ++ [0x7D])).length
    simp
    omega

theorem jfuelElems_le_length : ∀ (es : List Json),
    jfuelElems es ≤ (stringifyElems es).length + 1
  | [] => by simp [jfuelElems]
  | [e] => by
    have h := jfuel_le_length e
    show 1 + max (jfuel e) (jfuelElems []) ≤ (jsonStringify e).length + 1
    simp [jfuelElems]
    omega
  | e :: e' :: rest => by
    have h1 := jfuel_le_length e
    have h2 := jfuelElems_le_length (e' :: rest)
    show 1 + max (jfuel e) (jfuelElems (e' :: rest)) ≤
      (jsonStringify e ++ 0x2C :: stringifyElems (e' :: rest)).length + 1
    simp
    omega

theorem jfuelFields_le_length : ∀ (fs : List (List Nat × Json)),
    jfuelFields fs ≤ (stringifyFields fs).length + 1
  | [] => by simp [jfuelFields]
  | [(k, v)] => by
    have h := jfuel_le_length v
    show 1 + max (jfuel v) (jfuelFields []) ≤
      (strLit k ++ 0x3A :: jsonStringify v).length + 1
    simp [jfuelFields]
    omega
  | (k, v) :: kv' :: rest => by
    have h1 := jfuel_le_length v
    have h2 := jfuelFields_le_length (kv' :: rest)
    show 1 + max (jfuel v) (jfuelFields (kv' :: rest)) ≤
      (strLit k ++ 0x3A :: jsonStringify v ++ 0x2C :: stringifyFields (kv' :: rest)).length + 1
    simp
    omega

end

theorem parseValue_defaultNum (fuel c : Nat) (t : List Nat)
    (hc : c = 0x2D ∨ (0x30 ≤ c ∧ c ≤ 0x39)) :
    parseValue (fuel + 1) (c :: t) = parseNumberVal (c :: t) := by
  simp only [parseValue]
  rw [skipWs_nonws c t (by omega)]
  split
  all_goals first
    | rfl
    | (rename_i heq
       injection heq with e1 e2
       omega)

theorem parseAfterBracket_ne (fuel c : Nat) (t : List Nat) (h : c ≠ 0x5D) :
    parseAfterBracket fuel (c :: t) =
      (parseElemsTail fuel (c :: t)).map (fun p => (.jarr p.1, p.2)) := by
  unfold parseAfterBracket
  split
  · rename_i heq
    injection heq with e1 e2
    omega
  · rfl

theorem parseAfterBrace_ne (fuel c : Nat) (t : List Nat) (h : c ≠ 0x7D) :
    parseAfterBrace fuel (c :: t) =
      (parseFieldsTail fuel (c :: t)).map (fun p => (.jobj p.1, p.2)) := by
  unfold parseAfterBrace
  split
  · rename_i heq
    injection heq with e1 e2
    omega
  · rfl

mutual

theorem parseValue_stringify : ∀ (fuel : Nat) (j : Json) (rest : List Nat),
    jfuel j ≤ fuel → numStopper rest →
    parseValue fuel (jsonStringify j ++ rest) = some (j, rest)
  | fuel, .jnull, rest => fun hf _ => by
    obtain ⟨f, rfl⟩ : ∃ f, fuel = f + 1 :=
      ⟨fuel - 1, by have h1 : jfuel Json.jnull = 1 := rfl; omega⟩
    show parseValue (f + 1) (0x6E :: 0x75 :: 0x6C :: 0x6C :: rest) = _
    simp only [parseValue]
    rfl
  | fuel, .jbool true, rest => fun hf _ => by
    obtain ⟨f, rfl⟩ : ∃ f, fuel = f + 1 :=
      ⟨fuel - 1, by have h1 : jfuel (Json.jbool true) = 1 := rfl; omega⟩
    show parseValue (f + 1) (0x74 :: 0x72 :: 0x75 :: 0x65 :: rest) = _
    simp only [parseValue]
    rfl
  | fuel, .jbool false, rest => fun hf _ => by
    obtain ⟨f, rfl⟩ : ∃ f, fuel = f + 1 :=
      ⟨fuel - 1, by have h1 : jfuel (Json.jbool false) = 1 := rfl; omega⟩
    show parseValue (f + 1) (0x66 :: 0x61 :: 0x6C :: 0x73 :: 0x65 :: rest) = _
    simp only [parseValue]
    rfl
  | fuel, .jnum n, rest => fun hf hr => by
    obtain ⟨f, rfl⟩ : ∃ f, fuel = f + 1 :=
      ⟨fuel - 1, by have h1 : jfuel (Json.jnum n) = 1 := rfl; omega⟩
    obtain ⟨c, t, hct, hc⟩ := intToChars_head n
    show parseValue (f + 1) (intToChars n ++ rest) = _
    rw [hct, show (c :: t) ++ rest = c :: (t ++ rest) from rfl,
      parseValue_defaultNum f c (t ++ rest) hc,
      show c :: (t ++ rest) = (c :: t) ++ rest from rfl, ← hct,
      parseNumberVal_intToChars n rest hr]
  | fuel, .jstr s, rest => fun hf _ => by
    obtain ⟨f, rfl⟩ : ∃ f, fuel = f + 1 :=
      ⟨fuel - 1, by have h1 : jfuel (Json.jstr s) = 1 := rfl; omega⟩
    have e0 : jsonStringify (.jstr s) ++ rest =
        0x22 :: (flatAll (s.map escapeChar) ++ 0x22 :: rest) := by
      show 0x22 :: ((flatAll (s.map escapeChar) ++ [0x22]) ++ rest) = _
      simp
    rw [e0]
    simp only [parseValue]
    rw [skipWs_nonws 0x22 _ (by omega)]
    show (parseStringBody (flatAll (s.map escapeChar) ++ 0x22 :: rest)).map
      (fun p => (Json.jstr p.1, p.2)) = _
    rw [parseStringBody_escaped s rest]
    rfl
  | fuel, .jarr [], rest => fun hf _ => by
    obtain ⟨f, rfl⟩ : ∃ f, fuel = f + 1 :=
      ⟨fuel - 1, by have h1 : jfuel (Json.jarr []) = 1 := rfl; omega⟩
    show parseValue (f + 1) (0x5B :: 0x5D :: rest) = _
    simp only [parseValue]
    rw [skipWs_nonws 0x5B _ (by omega)]
    show parseAfterBracket f (skipWs (0x5D :: rest)) = _
    rw [skipWs_nonws 0x5D _ (by omega)]
    simp only [parseAfterBracket]
  | fuel, .jarr (e :: es'), rest => fun hf _ => by
    obtain ⟨f, rfl⟩ : ∃ f, fuel = f + 1 :=
      ⟨fuel - 1, by have := jfuel_pos (Json.jarr (e :: es')); omega⟩
    have hfe : jfuelElems (e :: es') ≤ f := by
      have h1 : jfuel (Json.jarr (e :: es')) = 1 + jfuelElems (e :: es') := rfl
      omega
    have e0 : jsonStringify (.jarr (e :: es')) ++ rest =
        0x5B :: (stringifyElems (e :: es') ++ 0x5D :: rest) := by
      show 0x5B :: ((stringifyElems (e :: es') ++ [0x5D]) ++ rest) = _
      simp
    rw [e0]
    simp only [parseValue]
    rw [skipWs_nonws 0x5B _ (by omega)]
    show parseAfterBracket f (skipWs (stringifyElems (e :: es') ++ 0x5D :: rest)) = _
    obtain ⟨c, t, hct, hok⟩ := stringifyElems_head e es'
    rw [hct, show (c :: t) ++ 0x5D :: rest = c :: (t ++ 0x5D :: rest) from rfl,
      skipWs_nonws c _ (by unfold jsonHeadOk at hok; omega),
      parseAfterBracket_ne f c _ (by unfold jsonHeadOk at hok; omega),
      show c :: (t ++ 0x5D :: rest) = (c :: t) ++ 0x5D :: rest from rfl, ← hct,
      parseElemsTail_stringify f (e :: es') rest (by simp) hfe]
    rfl
  | fuel, .jobj [], rest => fun hf _ => by
    obtain ⟨f, rfl⟩ : ∃ f, fuel = f + 1 :=
      ⟨fuel - 1, by have h1 : jfuel (Json.jobj []) = 1 + jfuelFields [] := rfl
                    have h2 : jfuelFields [] = 0 := rfl
                    omega⟩
    show parseValue (f + 1) (0x7B :: 0x7D :: rest) = _
    simp only [parseValue]
    rw [skipWs_nonws 0x7B _ (by omega)]
    show parseAfterBrace f (skipWs (0x7D :: rest)) = _
    rw [skipWs_nonws 0x7D _ (by omega)]
    simp only [parseAfterBrace]
  | fuel, .jobj (kv :: fs'), rest => fun hf _ => by
    obtain ⟨f, rfl⟩ : ∃ f, fuel = f + 1 :=
      ⟨fuel - 1, by have := jfuel_pos (Json.jobj (kv :: fs')); omega⟩
    have hff : jfuelFields (kv :: fs') ≤ f := by
      have h1 : jfuel (Json.jobj (kv :: fs')) = 1 + jfuelFields (kv :: fs') := rfl
      omega
    have e0 : jsonStringify (.jobj (kv :: fs')) ++ rest =
        0x7B :: (stringifyFields (kv :: fs') ++ 0x7D :: rest) := by
      show 0x7B :: ((stringifyFields (kv :: fs') ++ [0x7D]) ++ rest) = _
      simp
    rw [e0]
    simp only [parseValue]
    rw [skipWs_nonws 0x7B _ (by omega)]
    show parseAfterBrace f (skipWs (stringifyFields (kv :: fs') ++ 0x7D :: rest)) = _
    obtain ⟨t, hct⟩ := stringifyFields_head kv fs'
    rw [hct, show (0x22 :: t) ++ 0x7D :: rest = 0x22 :: (t ++ 0x7D :: rest) from rfl,
      skipWs_nonws 0x22 _ (by omega),
      parseAfterBrace_ne f 0x22 _ (by omega),
      show (0x22 : Nat) :: (t ++ 0x7D :: rest) = (0x22 :: t) ++ 0x7D :: rest from rfl, ← hct,
      parseFieldsTail_stringify f (kv :: fs') rest (by simp) hff]
    rfl

theorem parseElemsTail_stringify : ∀ (fuel : Nat) (es : List Json) (rest : List Nat),
    es ≠ [] → jfuelElems es ≤ fuel →
    parseElemsTail fuel (stringifyElems es ++ 0x5D :: rest) = some (es, rest)
  | _, [], _ => fun hne _ => absurd rfl hne
  | fuel, [e], rest => fun _ hfe => by
    obtain ⟨f, rfl⟩ : ∃ f, fuel = f + 1 :=
      ⟨fuel - 1, by have h1 : jfuelElems [e] = 1 + max (jfuel e) (jfuelElems []) := rfl
                    omega⟩
    have hfv : jfuel e ≤ f := by
      have h1 : jfuelElems [e] = 1 + max (jfuel e) (jfuelElems []) := rfl
      omega
    show parseElemsTail (f + 1) (jsonStringify e ++ 0x5D :: rest) = _
    simp only [parseElemsTail]
    rw [parseValue_stringify f e (0x5D :: rest) hfv (by simp [numStopper, isDigitChar])]
    show elemsCont f e (skipWs (0x5D :: rest)) = _
    rw [skipWs_nonws 0x5D _ (by omega)]
    simp only [elemsCont]
  | fuel, e :: e' :: es', rest => fun _ hfe => by
    obtain ⟨f, rfl⟩ : ∃ f, fuel = f + 1 :=
      ⟨fuel - 1, by
        have h1 : jfuelElems (e :: e' :: es') =
          1 + max (jfuel e) (jfuelElems (e' :: es')) := rfl
        omega⟩
    have h1 : jfuelElems (e :: e' :: es') =
        1 + max (jfuel e) (jfuelElems (e' :: es')) := rfl
    have hfv : jfuel e ≤ f := by omega
    have hfr : jfuelElems (e' :: es') ≤ f := by omega
    have e0 : stringifyElems (e :: e' :: es') ++ 0x5D :: rest =
        jsonStringify e ++ 0x2C :: (stringifyElems (e' :: es') ++ 0x5D :: rest) := by
      show (jsonStringify e ++ 0x2C :: stringifyElems (e' :: es')) ++ 0x5D :: rest = _
      simp
    rw [e0]
    simp only [parseElemsTail]
    rw [parseValue_stringify f e _ hfv (by simp [numStopper, isDigitChar])]
    show elemsCont f e (skipWs (0x2C :: (stringifyElems (e' :: es') ++ 0x5D :: rest))) = _
    rw [skipWs_nonws 0x2C _ (by omega)]
    simp only [elemsCont]
    rw [parseElemsTail_stringify f (e' :: es') rest (by simp) hfr]
    rfl

theorem parseFieldsTail_stringify : ∀ (fuel : Nat) (fs : List (List Nat × Json)) (rest : List Nat),
    fs ≠ [] → jfuelFields fs ≤ fuel →
    parseFieldsTail fuel (stringifyFields fs ++ 0x7D :: rest) = some (fs, rest)
  | _, [], _ => fun hne _ => absurd rfl hne
  | fuel, [(k, v)], rest => fun _ hff => by
    obtain ⟨f, rfl⟩ : ∃ f, fuel = f + 1 :=
      ⟨fuel - 1, by have h1 : jfuelFields [(k, v)] = 1 + max (jfuel v) (jfuelFields []) := rfl
                    omega⟩
    have hfv : jfuel v ≤ f := by
      have h1 : jfuelFields [(k, v)] = 1 + max (jfuel v) (jfuelFields []) := rfl
      omega
    have e0 : stringifyFields [(k, v)] ++ 0x7D :: rest =
        0x22 :: (flatAll (k.map escapeChar) ++
          0x22 :: (0x3A :: (jsonStringify v ++ 0x7D :: rest))) := by
      show ((0x22 :: (flatAll (k.map escapeChar) ++ [0x22])) ++ 0x3A :: jsonStringify v)
          ++ 0x7D :: rest = _
      simp
    rw [e0]
    simp only [parseFieldsTail]
    rw [skipWs_nonws 0x22 _ (by omega)]
    show (match parseStringBody (flatAll (k.map escapeChar) ++
        0x22 :: (0x3A :: (jsonStringify v ++ 0x7D :: rest))) with
      | none => none
      | some (k, r1) => fieldsColon f k (skipWs r1)) = _
    rw [parseStringBody_escaped k _]
    show fieldsColon f k (skipWs (0x3A :: (jsonStringify v ++ 0x7D :: rest))) = _
    rw [skipWs_nonws 0x3A _ (by omega)]
    simp only [fieldsColon]
    rw [parseValue_stringify f v (0x7D :: rest) hfv (by simp [numStopper, isDigitChar])]
    show fieldsCont f k v (skipWs (0x7D :: rest)) = _
    rw [skipWs_nonws 0x7D _ (by omega)]
    simp only [fieldsCont]
  | fuel, (k, v) :: kv' :: fs', rest => fun _ hff => by
    obtain ⟨f, rfl⟩ : ∃ f, fuel = f + 1 :=
      ⟨fuel - 1, by
        have h1 : jfuelFields ((k, v) :: kv' :: fs') =
          1 + max (jfuel v) (jfuelFields (kv' :: fs')) := rfl
        omega⟩
    have h1 : jfuelFields ((k, v) :: kv' :: fs') =
        1 + max (jfuel v) (jfuelFields (kv' :: fs')) := rfl
    have hfv : jfuel v ≤ f := by omega
    have hfr : jfuelFields (kv' :: fs') ≤ f := by omega
    have e0 : stringifyFields ((k, v) :: kv' :: fs') ++ 0x7D :: rest =
        0x22 :: (flatAll (k.map escapeChar) ++
          0x22 :: (0x3A :: (jsonStringify v ++
            0x2C :: (stringifyFields (kv' :: fs') ++ 0x7D :: rest)))) := by
      rw [show stringifyFields ((k, v) :: kv' :: fs') =
          strLit k ++ 0x3A :: jsonStringify v ++ 0x2C :: stringifyFields (kv' :: fs')
          from rfl,
        show strLit k = 0x22 :: (flatAll (k.map escapeChar) ++ [0x22]) from rfl]
      simp
    rw [e0]
    simp only [parseFieldsTail]
    rw [skipWs_nonws 0x22 _ (by omega)]
    show (match parseStringBody (flatAll (k.map escapeChar) ++
        0x22 :: (0x3A :: (jsonStringify v ++
          0x2C :: (stringifyFields (kv' :: fs') ++ 0x7D :: rest)))) with
      | none => none
      | some (k, r1) => fieldsColon f k (skipWs r1)) = _
    rw [parseStringBody_escaped k _]
    show fieldsColon f k (skipWs (0x3A :: (jsonStringify v ++
      0x2C :: (stringifyFields (kv' :: fs') ++ 0x7D :: rest)))) = _
    rw [skipWs_nonws 0x3A _ (by omega)]
    simp only [fieldsColon]
    rw [parseValue_stringify f v _ hfv (by simp [numStopper, isDigitChar])]
    show fieldsCont f k v (skipWs (0x2C ::
      (stringifyFields (kv' :: fs') ++ 0x7D :: rest))) = _
    rw [skipWs_nonws 0x2C _ (by omega)]
    simp only [fieldsCont]
    rw [parseFieldsTail_stringify f (kv' :: fs') rest (by simp) hfr]
    rfl

end

/-- `JSON.parse` inverts `JSON.stringify` on the modelled values. -/
theorem jsonParse_stringify (j : Json) :
    jsonParse (jsonStringify j) = some j := by
  have h : parseValue ((jsonStringify j).length + 1) (jsonStringify j) = some (j, []) := by
    have h2 := parseValue_stringify ((jsonStringify j).length + 1) j []
      (by have := jfuel_le_length j; omega) trivial
    simpa using h2
  unfold jsonParse
  rw [h]
  rfl

theorem flatAll_mem {x : Nat} {ls : List (List Nat)} :
    x ∈ flatAll ls ↔ ∃ l ∈ ls, x ∈ l := by
  induction ls with
  | nil => simp [flatAll]
  | cons l ls ih => simp [flatAll, ih]

theorem hexDigitChar_range (x : Nat) : 0x30 ≤ hexDigitChar x ∧ hexDigitChar x ≤ 0x57 + x := by
  unfold hexDigitChar
  split <;> omega

theorem escapeChar_chars (c : Nat) (hc : ScalarVal c) :
    ∀ x ∈ escapeChar c, 0x20 ≤ x ∧ ScalarVal x := by
  intro x hx
  unfold escapeChar at hx
  split_ifs at hx with h1 h2 h3 h4 h5 h6 h7 h8
  all_goals simp at hx
  · rcases hx with rfl | rfl <;> exact ⟨by omega, Or.inl (by omega)⟩
  · rcases hx with rfl | rfl <;> exact ⟨by omega, Or.inl (by omega)⟩
  · rcases hx with rfl | rfl <;> exact ⟨by omega, Or.inl (by omega)⟩
  · rcases hx with rfl | rfl <;> exact ⟨by omega, Or.inl (by omega)⟩
  · rcases hx with rfl | rfl <;> exact ⟨by omega, Or.inl (by omega)⟩
  · rcases hx with rfl | rfl <;> exact ⟨by omega, Or.inl (by omega)⟩
  · rcases hx with rfl | rfl <;> exact ⟨by omega, Or.inl (by omega)⟩
  · have hd1 := hexDigitChar_range (c / 16)
    have hd2 := hexDigitChar_range (c % 16)
    rcases hx with rfl | rfl | rfl | rfl | rfl | rfl
    all_goals exact ⟨by omega, Or.inl (by omega)⟩
  · subst hx
    exact ⟨by omega, hc⟩

theorem natToDigits_chars (n : Nat) :
    ∀ x ∈ natToDigits n, 0x20 ≤ x ∧ ScalarVal x := by
  intro x hx
  have := natToDigits_digits n x hx
  unfold isDigitChar at this
  simp at this
  exact ⟨by omega, Or.inl (by omega)⟩

theorem intToChars_chars (n : Int) :
    ∀ x ∈ intToChars n, 0x20 ≤ x ∧ ScalarVal x := by
  intro x hx
  unfold intToChars at hx
  split at hx
  · rcases List.mem_cons.1 hx with rfl | hx
    · exact ⟨by omega, Or.inl (by omega)⟩
    · exact natToDigits_chars _ x hx
  · exact natToDigits_chars _ x hx

theorem strLit_chars (k : List Nat) (hk : ∀ c ∈ k, ScalarVal c) :
    ∀ x ∈ strLit k, 0x20 ≤ x ∧ ScalarVal x := by
  intro x hx
  unfold strLit at hx
  rcases List.mem_cons.1 hx with rfl | hx
  · exact ⟨by omega, Or.inl (by omega)⟩
  rcases List.mem_append.1 hx with hx | hx
  · obtain ⟨l, hl, hxl⟩ := flatAll_mem.1 hx
    obtain ⟨c, hc, rfl⟩ := List.mem_map.1 hl
    exact escapeChar_chars c (hk c hc) x hxl
  · simp at hx
    subst hx
    exact ⟨by omega, Or.inl (by omega)⟩

mutual

theorem stringify_chars : ∀ (j : Json), JsonValid j →
    ∀ x ∈ jsonStringify j, 0x20 ≤ x ∧ ScalarVal x
  | .jnull => fun _ x hx => by
    rw [show jsonStringify .jnull = [0x6E, 0x75, 0x6C, 0x6C] from rfl] at hx
    have hb : 0x20 ≤ x ∧ x ≤ 0x7F := by simp at hx; omega
    exact ⟨hb.1, Or.inl (by omega)⟩
  | .jbool true => fun _ x hx => by
    rw [show jsonStringify (.jbool true) = [0x74, 0x72, 0x75, 0x65] from rfl] at hx
    have hb : 0x20 ≤ x ∧ x ≤ 0x7F := by simp at hx; omega
    exact ⟨hb.1, Or.inl (by omega)⟩
  | .jbool false => fun _ x hx => by
    rw [show jsonStringify (.jbool false) = [0x66, 0x61, 0x6C, 0x73, 0x65] from rfl] at hx
    have hb : 0x20 ≤ x ∧ x ≤ 0x7F := by simp at hx; omega
    exact ⟨hb.1, Or.inl (by omega)⟩
  | .jnum n => fun _ x hx => intToChars_chars n x hx
  | .jstr s => fun hv x hx => strLit_chars s hv x hx
  | .jarr es => fun hv x hx => by
    rcases List.mem_cons.1 hx with rfl | hx
    · exact ⟨by omega, Or.inl (by omega)⟩
    rcases List.mem_append.1 hx with hx | hx
    · exact stringifyElems_chars es hv x hx
    · simp at hx
      subst hx
      exact ⟨by omega, Or.inl (by omega)⟩
  | .jobj fs => fun hv x hx => by
    rcases List.mem_cons.1 hx with rfl | hx
    · exact ⟨by omega, Or.inl (by omega)⟩
    rcases List.mem_append.1 hx with hx | hx
    · exact stringifyFields_chars fs hv.1 x hx
    · simp at hx
      subst hx
      exact ⟨by omega, Or.inl (by omega)⟩

theorem stringifyElems_chars : ∀ (es : List Json), JsonValidElems es →
    ∀ x ∈ stringifyElems es, 0x20 ≤ x ∧ ScalarVal x
  | [] => fun _ x hx => by simp [stringifyElems] at hx
  | [e] => fun hv x hx => stringify_chars e hv.1 x hx
  | e :: e' :: rest => fun hv x hx => by
    rw [show stringifyElems (e :: e' :: rest) =
      jsonStringify e ++ 0x2C :: stringifyElems (e' :: rest) from rfl] at hx
    rcases List.mem_append.1 hx with hx | hx
    · exact stringify_chars e hv.1 x hx
    rcases List.mem_cons.1 hx with rfl | hx
    · exact ⟨by omega, Or.inl (by omega)⟩
    · exact stringifyElems_chars (e' :: rest) hv.2 x hx

theorem stringifyFields_chars : ∀ (fs : List (List Nat × Json)), JsonValidFields fs →
    ∀ x ∈ stringifyFields fs, 0x20 ≤ x ∧ ScalarVal x
  | [] => fun _ x hx => by simp [stringifyFields] at hx
  | [(k, v)] => fun hv x hx => by
    rw [show stringifyFields [(k, v)] = strLit k ++ 0x3A :: jsonStringify v from rfl] at hx
    rcases List.mem_append.1 hx with hx | hx
    · exact strLit_chars k hv.1 x hx
    rcases List.mem_cons.1 hx with rfl | hx
    · exact ⟨by omega, Or.inl (by omega)⟩
    · exact stringify_chars v hv.2.1 x hx
  | (k, v) :: kv' :: rest => fun hv x hx => by
    rw [show stringifyFields ((k, v) :: kv' :: rest) =
      strLit k ++ 0x3A :: jsonStringify v ++ 0x2C :: stringifyFields (kv' :: rest)
      from rfl] at hx
    rcases List.mem_append.1 hx with hx | hx
    · rcases List.mem_append.1 hx with hx | hx
      · exact strLit_chars k hv.1 x hx
      rcases List.mem_cons.1 hx with rfl | hx
      · exact ⟨by omega, Or.inl (by omega)⟩
      · exact stringify_chars v hv.2.1 x hx
    rcases List.mem_cons.1 hx with rfl | hx
    · exact ⟨by omega, Or.inl (by omega)⟩
    · exact stringifyFields_chars (kv' :: rest) hv.2.2 x hx

end

theorem utf8EncodeChar_no_zero (c : Nat) (hc : 0x20 ≤ c) : 0 ∉ utf8EncodeChar c := by
  unfold utf8EncodeChar
  split_ifs <;> intro hmem <;> simp at hmem <;> omega

theorem utf8Encode_no_zero (cs : List Nat) (h : ∀ c ∈ cs, 0x20 ≤ c) :
    0 ∉ utf8Encode cs := by
  intro hmem
  obtain ⟨l, hl, hxl⟩ := flatAll_mem.1 hmem
  obtain ⟨c, hc, rfl⟩ := List.mem_map.1 hl
  exact utf8EncodeChar_no_zero c (h c hc) hxl

/-! ## `createHybridStreamDecoder`: the hybrid byte-stream decoder

State and `push` are translated from `createHybridStreamDecoder` in
`src/ChatApp.tsx`.  The ghost field `ranDelimSearch` records whether
`indexOfSubarray` has ever been invoked (it has no effect on behaviour);
claim C4 speaks about the delimiter search being reached. -/

/-- The 8-zero-byte delimiter (`new Uint8Array(8)`). -/
def DELIM : List Nat := List.replicate 8 0

/-- The 32 KiB framed-mode buffer cap. -/
def MAX_META_BYTES : Nat := 32 * 1024

/-- `firstNonWhitespaceByte`: skip space, tab, LF, CR. -/
def firstNonWhitespaceByte : List Nat → Option Nat
  | [] => none
  | c :: r =>
    if c = 0x20 ∨ c = 0x09 ∨ c = 0x0A ∨ c = 0x0D then firstNonWhitespaceByte r
    else some c

/-- `needle` occurs at the start of `hay` (the whole needle must fit). -/
def listHasPrefix : List Nat → List Nat → Bool
  | [], _ => true
  | _ :: _, [] => false
  | a :: as, b :: bs => a == b && listHasPrefix as bs

/-- `indexOfSubarray`: index of the first full occurrence of `needle` in
`hay` (`-1` in the source becomes `none`). -/
def indexOfSubarray (hay needle : List Nat) : Option Nat :=
  if listHasPrefix needle hay then some 0
  else
    match hay with
    | [] => none
    | _ :: t => (indexOfSubarray t needle).map (· + 1)

/-- The `{ text, meta }` object returned by one `push` call. -/
structure PushResult where
  text : List Nat
  meta : Option Json
deriving Repr

/-- The decoder's closure state (`startedBody`, `decidedPlainText`, `buf`,
and the `TextDecoder` instance `td`), plus the `ranDelimSearch` ghost. -/
structure DecState where
  startedBody : Bool
  decidedPlainText : Bool
  buf : List Nat
  td : Utf8State
  ranDelimSearch : Bool
deriving Repr

/-- Fresh decoder state, as built by `createHybridStreamDecoder()`. -/
def hybridDecoderInit : DecState :=
  { startedBody := false, decidedPlainText := false, buf := [],
    td := utf8Init, ranDelimSearch := false }

/-- One `push(bytes)` call. -/
def decoderPush (s : DecState) (bytes : List Nat) : DecState × PushResult :=
  if bytes.length = 0 then (s, ⟨[], none⟩)
  else
    let buf := s.buf ++ bytes
    let dec :=
      if !s.startedBody && !s.decidedPlainText then
        match firstNonWhitespaceByte buf with
        | some b => if b ≠ 0x7B then (true, true) else (s.startedBody, s.decidedPlainText)
        | none => (s.startedBody, s.decidedPlainText)
      else (s.startedBody, s.decidedPlainText)
    if dec.1 = false then
      if buf.length > MAX_META_BYTES then
        let r := utf8Run s.td buf
        ({ startedBody := true, decidedPlainText := dec.2, buf := [],
           td := r.1, ranDelimSearch := s.ranDelimSearch }, ⟨r.2, none⟩)
      else
        match indexOfSubarray buf DELIM with
        | none =>
          ({ startedBody := dec.1, decidedPlainText := dec.2, buf := buf,
             td := s.td, ranDelimSearch := true }, ⟨[], none⟩)
        | some i =>
          let metaStr := utf8DecodeFull s.td (buf.take i)
          let bodyBytes := buf.drop (i + DELIM.length)
          let r := utf8Run utf8Init bodyBytes
          ({ startedBody := true, decidedPlainText := dec.2, buf := [],
             td := r.1, ranDelimSearch := true }, ⟨r.2, jsonParse metaStr⟩)
    else
      let r := utf8Run s.td buf
      ({ startedBody := dec.1, decidedPlainText := dec.2, buf := [],
         td := r.1, ranDelimSearch := s.ranDelimSearch }, ⟨r.2, none⟩)

/-- Push a list of chunks in order, starting from state `s`. -/
def decoderRunFrom (s : DecState) : List (List Nat) → DecState × List PushResult
  | [] => (s, [])
  | c :: cs =>
    let r := decoderPush s c
    let rest := decoderRunFrom r.1 cs
    (rest.1, r.2 :: rest.2)

/-- Run a fresh decoder over a chunked stream. -/
def runDecoder (chunks : List (List Nat)) : DecState × List PushResult :=
  decoderRunFrom hybridDecoderInit chunks

/-- All metadata objects produced by a sequence of pushes. -/
def metasOf (outs : List PushResult) : List Json := outs.filterMap (·.meta)

/-- Concatenation of all text fields produced by a sequence of pushes. -/
def textsOf (outs : List PushResult) : List Nat := flatAll (outs.map (·.text))

theorem listHasPrefix_short (needle hay : List Nat) (h : hay.length < needle.length) :
    listHasPrefix needle hay = false := by
  induction needle generalizing hay with
  | nil => simp at h
  | cons a as ih =>
    cases hay with
    | nil => rfl
    | cons b bs =>
      simp [listHasPrefix]
      intro _
      exact ih bs (by simpa using Nat.lt_of_succ_lt_succ h)

theorem listHasPrefix_self_append (l r : List Nat) : listHasPrefix l (l ++ r) = true := by
  induction l with
  | nil => rfl
  | cons a as ih => simpa [listHasPrefix] using ih

theorem indexOfSubarray_repl_zeros (k : Nat) (hk : k < 8) :
    indexOfSubarray (List.replicate k 0) DELIM = none := by
  induction k with
  | zero =>
    unfold indexOfSubarray
    rw [if_neg (by simp [listHasPrefix_short DELIM []
      (by simp [DELIM])])]
    rfl
  | succ k ih =>
    unfold indexOfSubarray
    rw [if_neg (by simp [listHasPrefix_short DELIM (List.replicate (k + 1) 0)
      (by simp [DELIM]; omega)])]
    rw [List.replicate_succ]
    simp only []
    rw [ih (by omega)]
    rfl

theorem indexOfSubarray_pre_zeros (pre : List Nat) (k : Nat) (hk : k < 8)
    (hpre : 0 ∉ pre) :
    indexOfSubarray (pre ++ List.replicate k 0) DELIM = none := by
  induction pre with
  | nil => simpa using indexOfSubarray_repl_zeros k hk
  | cons p pre ih =>
    have hp : p ≠ 0 := fun h => hpre (by simp [h])
    unfold indexOfSubarray
    rw [if_neg (by
      show ¬ listHasPrefix DELIM (p :: (pre ++ List.replicate k 0)) = true
      rw [show DELIM = 0 :: List.replicate 7 0 from rfl]
      simp [listHasPrefix]
      intro h
      omega)]
    simp only [List.cons_append]
    rw [ih (fun h => hpre (by simp [h]))]
    rfl

theorem indexOfSubarray_finds (pre rest : List Nat) (hpre : 0 ∉ pre) :
    indexOfSubarray (pre ++ DELIM ++ rest) DELIM = some pre.length := by
  induction pre with
  | nil =>
    unfold indexOfSubarray
    rw [if_pos (by simpa using listHasPrefix_self_append DELIM rest)]
    rfl
  | cons p pre ih =>
    have hp : p ≠ 0 := fun h => hpre (by simp [h])
    unfold indexOfSubarray
    rw [if_neg (by
      show ¬ listHasPrefix DELIM (p :: (pre ++ DELIM ++ rest)) = true
      rw [show DELIM = 0 :: List.replicate 7 0 from rfl]
      simp [listHasPrefix]
      intro h
      omega)]
    simp only [List.cons_append]
    rw [ih (fun h => hpre (by simp [h]))]
    rfl

theorem decoderPush_empty (s : DecState) (c : List Nat) (h : c.length = 0) :
    decoderPush s c = (s, ⟨[], none⟩) := by
  unfold decoderPush
  rw [if_pos h]

theorem decoderPush_pass (s : DecState) (c : List Nat)
    (hs : s.startedBody = true) (hne : c.length ≠ 0) :
    decoderPush s c =
      ({ startedBody := true, decidedPlainText := s.decidedPlainText, buf := [],
         td := (utf8Run s.td (s.buf ++ c)).1, ranDelimSearch := s.ranDelimSearch },
       ⟨(utf8Run s.td (s.buf ++ c)).2, none⟩) := by
  unfold decoderPush
  rw [if_neg hne]
  simp only [hs, Bool.not_true, Bool.false_and, Bool.false_eq_true, if_false]
  rfl

/-- Once `startedBody` holds with an empty buffer, the decoder is a pure
streaming UTF-8 passthrough: no further push ever yields metadata, the
buffer stays empty, and the concatenated text is the streaming decode of
all further bytes. -/
theorem decoderRun_pass (cs : List (List Nat)) : ∀ (s : DecState),
    s.startedBody = true → s.buf = [] →
    (decoderRunFrom s cs).1.startedBody = true ∧
    (decoderRunFrom s cs).1.buf = [] ∧
    (decoderRunFrom s cs).1.td = (utf8Run s.td (flatAll cs)).1 ∧
    (decoderRunFrom s cs).1.ranDelimSearch = s.ranDelimSearch ∧
    metasOf (decoderRunFrom s cs).2 = [] ∧
    textsOf (decoderRunFrom s cs).2 = (utf8Run s.td (flatAll cs)).2 := by
  induction cs with
  | nil =>
    intro s hs hb
    simp [decoderRunFrom, metasOf, textsOf, flatAll, utf8Run, hs, hb]
  | cons c cs ih =>
    intro s hs hb
    by_cases hc : c.length = 0
    · have hc0 : c = [] := List.length_eq_zero.1 hc
      subst hc0
      have hpush := decoderPush_empty s [] rfl
      have ihs := ih s hs hb
      simp only [decoderRunFrom, hpush]
      refine ⟨ihs.1, ihs.2.1, ?_, ?_, ?_, ?_⟩
      · rw [ihs.2.2.1]
        simp [flatAll]
      · exact ihs.2.2.2.1
      · simp [metasOf] at ihs ⊢
        exact ihs.2.2.2.2.1
      · simp [textsOf, flatAll] at ihs ⊢
        rw [ihs.2.2.2.2.2]
    · have hpush := decoderPush_pass s c hs hc
      rw [hb] at hpush
      simp only [List.nil_append] at hpush
      have ihs := ih
        ⟨true, s.decidedPlainText, [], (utf8Run s.td c).1, s.ranDelimSearch⟩ rfl rfl
      simp only [decoderRunFrom, hpush]
      have hfa : flatAll (c :: cs) = c ++ flatAll cs := rfl
      rw [hfa, utf8Run_append]
      refine ⟨ihs.1, ihs.2.1, ?_, ?_, ?_, ?_⟩
      · rw [ihs.2.2.1]
      · rw [ihs.2.2.2.1]
      · simp only [metasOf, List.filterMap_cons]
        simp only [metasOf] at ihs
        simpa using ihs.2.2.2.2.1
      · simp only [textsOf, List.map_cons, flatAll]
        simp only [textsOf] at ihs
        rw [ihs.2.2.2.2.2]

theorem firstNonWs_brace (t : List Nat) :
    firstNonWhitespaceByte (0x7B :: t) = some 0x7B := by
  unfold firstNonWhitespaceByte
  rw [if_neg (by omega)]

theorem decoderPush_frame (s : DecState) (c : List Nat)
    (hs : s.startedBody = false) (hd : s.decidedPlainText = false)
    (hne : c.length ≠ 0)
    (hnb : firstNonWhitespaceByte (s.buf ++ c) = none ∨
      firstNonWhitespaceByte (s.buf ++ c) = some 0x7B)
    (hcap : (s.buf ++ c).length ≤ MAX_META_BYTES) :
    decoderPush s c =
      (match indexOfSubarray (s.buf ++ c) DELIM with
       | none => (⟨false, false, s.buf ++ c, s.td, true⟩, ⟨[], none⟩)
       | some i =>
         (⟨true, false, [], (utf8Run utf8Init ((s.buf ++ c).drop (i + 8))).1, true⟩,
          ⟨(utf8Run utf8Init ((s.buf ++ c).drop (i + 8))).2,
            jsonParse (utf8DecodeFull s.td ((s.buf ++ c).take i))⟩)) := by
  unfold decoderPush
  rw [if_neg hne]
  rcases hnb with hnb | hnb <;>
    · simp only [hnb, hs, hd, Bool.not_false, Bool.and_self, if_true,
        ne_eq, not_true_eq_false, if_false]
      rw [if_neg (by omega)]
      rfl

/-- Side condition of the amended decoder-framing claim: at every push made
while the delimiter has not yet fully arrived (fewer than `preLen + 8`
bytes consumed), the accumulated buffer stays within the 32 KiB cap. -/
def capOk (preLen : Nat) : Nat → List (List Nat) → Prop
  | _, [] => True
  | consumed, c :: cs =>
    (consumed < preLen + 8 → consumed + c.length ≤ MAX_META_BYTES) ∧
      capOk preLen (consumed + c.length) cs

instance capOkDec (preLen : Nat) :
    (consumed : Nat) → (cs : List (List Nat)) → Decidable (capOk preLen consumed cs)
  | _, [] => .isTrue trivial
  | consumed, c :: cs =>
    have : Decidable (capOk preLen (consumed + c.length) cs) :=
      capOkDec preLen (consumed + c.length) cs
    by unfold capOk; infer_instance

theorem take_append_exact (A B : List Nat) (n : Nat) (h : A.length = n) :
    (A ++ B).take n = A := by
  subst h
  induction A with
  | nil => rfl
  | cons a as ih => simpa [List.take_succ_cons] using ih

theorem drop_append_exact (A B : List Nat) (n : Nat) (h : A.length = n) :
    (A ++ B).drop n = B := by
  subst h
  induction A with
  | nil => rfl
  | cons a as ih => simpa using ih

theorem take_append_short (A B : List Nat) (n : Nat) (h : n ≤ A.length) :
    (A ++ B).take n = A.take n := by
  induction A generalizing n with
  | nil =>
    simp at h
    subst h
    rfl
  | cons a as ih =>
    cases n with
    | zero => rfl
    | succ m =>
      simp only [List.cons_append, List.take_succ_cons]
      rw [ih m (by simpa using Nat.lt_succ_iff.1 (Nat.lt_of_lt_of_le (Nat.lt_succ_self m) h))]

theorem take_append_long (A B : List Nat) (n : Nat) (h : A.length ≤ n) :
    (A ++ B).take n = A ++ B.take (n - A.length) := by
  induction A generalizing n with
  | nil => simp
  | cons a as ih =>
    cases n with
    | zero => simp at h
    | succ m =>
      simp only [List.cons_append, List.take_succ_cons, List.length_cons]
      rw [ih m (by simpa using h)]
      simp [Nat.succ_sub_succ]

theorem drop_append_long (A B : List Nat) (n : Nat) (h : A.length ≤ n) :
    (A ++ B).drop n = B.drop (n - A.length) := by
  induction A generalizing n with
  | nil => simp
  | cons a as ih =>
    cases n with
    | zero => simp at h
    | succ m =>
      simp only [List.cons_append, List.drop_succ_cons, List.length_cons]
      rw [ih m (by simpa using h)]
      congr 1
      omega

/-- Core of the decoder-framing claim, over an arbitrary zero-free framed
preamble `pre` starting with `{`: any chunking of
`pre ++ DELIM ++ bodyB` that respects the cap yields the parsed preamble as
metadata on exactly one push and the streamed decode of `bodyB` as text. -/
theorem decoderRun_framed_core (pre bodyB : List Nat) (M : Json)
    (hpre0 : 0 ∉ pre)
    (hprehead : ∃ p', pre = 0x7B :: p')
    (hmeta : jsonParse (utf8DecodeFull utf8Init pre) = some M) :
    ∀ (cs : List (List Nat)) (L : Nat) (s : DecState),
    L < pre.length + 8 →
    s.startedBody = false → s.decidedPlainText = false →
    s.buf = (pre ++ DELIM ++ bodyB).take L →
    s.td = utf8Init →
    capOk pre.length L cs →
    flatAll cs = (pre ++ DELIM ++ bodyB).drop L →
    metasOf (decoderRunFrom s cs).2 = [M] ∧
    textsOf (decoderRunFrom s cs).2 = (utf8Run utf8Init bodyB).2 := by
  have hD : DELIM.length = 8 := rfl
  have h12 : (pre ++ DELIM).length = pre.length + 8 := by
    rw [List.length_append, hD]
  have hFullLen : (pre ++ DELIM ++ bodyB).length = pre.length + 8 + bodyB.length := by
    rw [List.length_append, h12]
  obtain ⟨p', hp'⟩ := hprehead
  have hFullCons : pre ++ DELIM ++ bodyB = 0x7B :: (p' ++ DELIM ++ bodyB) := by
    rw [hp']
    rfl
  intro cs
  induction cs with
  | nil =>
    intro L s hL _ _ _ _ _ hflat
    exfalso
    have h1 : (pre ++ DELIM ++ bodyB).drop L = [] := by
      rw [← hflat]
      rfl
    have h2 := List.length_drop L (pre ++ DELIM ++ bodyB)
    rw [h1, hFullLen] at h2
    simp at h2
    omega
  | cons c cs ih =>
    intro L s hL hs hd hb htd hcap hflat
    by_cases hc : c.length = 0
    · have hc0 : c = [] := List.length_eq_zero.1 hc
      subst hc0
      have hpush := decoderPush_empty s [] rfl
      have hcap' : capOk pre.length L cs := by
        have h := hcap.2
        simpa using h
      have hflat' : flatAll cs = (pre ++ DELIM ++ bodyB).drop L := by
        rw [← hflat]
        rfl
      have hrec := ih L s hL hs hd hb htd hcap' hflat'
      simp only [decoderRunFrom, hpush]
      constructor
      · simp only [metasOf, List.filterMap_cons]
        exact hrec.1
      · simp only [textsOf, List.map_cons, flatAll, List.nil_append]
        exact hrec.2
    · -- non-empty chunk: the buffer grows to the first L + c.length bytes
      have hLlen : ((pre ++ DELIM ++ bodyB).take L).length = L := by
        rw [List.length_take]
        omega
      have hsplit : pre ++ DELIM ++ bodyB =
          ((pre ++ DELIM ++ bodyB).take L ++ c) ++ flatAll cs := by
        conv_lhs => rw [← List.take_append_drop L (pre ++ DELIM ++ bodyB), ← hflat]
        rw [show flatAll (c :: cs) = c ++ flatAll cs from rfl]
        simp [List.append_assoc]
      have hbc : s.buf ++ c = (pre ++ DELIM ++ bodyB).take (L + c.length) := by
        have h2 := take_append_exact ((pre ++ DELIM ++ bodyB).take L ++ c) (flatAll cs)
          (L + c.length) (by simp [hLlen]; omega)
        rw [← hsplit] at h2
        rw [hb, h2]
      have hflat' : flatAll cs = (pre ++ DELIM ++ bodyB).drop (L + c.length) := by
        have h2 := drop_append_exact ((pre ++ DELIM ++ bodyB).take L ++ c) (flatAll cs)
          (L + c.length) (by simp [hLlen]; omega)
        rw [← hsplit] at h2
        rw [h2]
      have hhead : ∃ t, s.buf ++ c = 0x7B :: t := by
        rw [hbc, hFullCons]
        obtain ⟨m, hm⟩ : ∃ m, L + c.length = m + 1 := ⟨L + c.length - 1, by omega⟩
        rw [hm, List.take_succ_cons]
        exact ⟨_, rfl⟩
      have hcapc : L + c.length ≤ MAX_META_BYTES := hcap.1 hL
      have hcapLen : (s.buf ++ c).length ≤ MAX_META_BYTES := by
        rw [hbc, List.length_take]
        omega
      have hnb : firstNonWhitespaceByte (s.buf ++ c) = none ∨
          firstNonWhitespaceByte (s.buf ++ c) = some 0x7B := by
        obtain ⟨t, ht⟩ := hhead
        rw [ht, firstNonWs_brace]
        exact Or.inr rfl
      have hpush := decoderPush_frame s c hs hd hc hnb hcapLen
      by_cases hB8 : L + c.length < pre.length + 8
      · -- still inside the preamble: no delimiter can be found yet
        have hidx : indexOfSubarray (s.buf ++ c) DELIM = none := by
          rw [hbc]
          by_cases hLp : L + c.length ≤ pre.length
          · have hshape : (pre ++ DELIM ++ bodyB).take (L + c.length) =
                pre.take (L + c.length) := by
              rw [take_append_short (pre ++ DELIM) bodyB _ (by omega),
                take_append_short pre DELIM _ hLp]
            rw [hshape]
            have h0 : 0 ∉ pre.take (L + c.length) :=
              fun h => hpre0 (List.take_subset _ _ h)
            simpa using indexOfSubarray_pre_zeros (pre.take (L + c.length)) 0
              (by omega) h0
          · have hshape : (pre ++ DELIM ++ bodyB).take (L + c.length) =
                pre ++ List.replicate (L + c.length - pre.length) 0 := by
              rw [take_append_short (pre ++ DELIM) bodyB _ (by omega),
                take_append_long pre DELIM _ (by omega),
                show DELIM = List.replicate 8 0 from rfl, List.take_replicate,
                Nat.min_eq_left (by omega)]
            rw [hshape]
            exact indexOfSubarray_pre_zeros pre _ (by omega) hpre0
        rw [hidx] at hpush
        have hrec := ih (L + c.length) ⟨false, false, s.buf ++ c, s.td, true⟩ hB8 rfl rfl
          (by simp only []; rw [hbc]) (by simp only []; exact htd) hcap.2 hflat'
        simp only [decoderRunFrom, hpush]
        constructor
        · simp only [metasOf, List.filterMap_cons]
          exact hrec.1
        · simp only [textsOf, List.map_cons, flatAll, List.nil_append]
          exact hrec.2
      · -- the delimiter completes inside this push
        have hshape : s.buf ++ c =
            (pre ++ DELIM) ++ bodyB.take (L + c.length - (pre.length + 8)) := by
          rw [hbc, take_append_long (pre ++ DELIM) bodyB _ (by omega), h12]
        have hidx : indexOfSubarray (s.buf ++ c) DELIM = some pre.length := by
          rw [hshape]
          have h := indexOfSubarray_finds pre
            (bodyB.take (L + c.length - (pre.length + 8))) hpre0
          exact h
        rw [hidx] at hpush
        have hpush2 : decoderPush s c =
            (⟨true, false, [],
               (utf8Run utf8Init ((s.buf ++ c).drop (pre.length + 8))).1, true⟩,
             ⟨(utf8Run utf8Init ((s.buf ++ c).drop (pre.length + 8))).2,
               jsonParse (utf8DecodeFull s.td ((s.buf ++ c).take pre.length))⟩) := hpush
        have htake : (s.buf ++ c).take pre.length = pre := by
          rw [hshape, take_append_short (pre ++ DELIM) _ _ (by omega),
            take_append_short pre DELIM _ (le_refl _), List.take_length]
        have hdrop : (s.buf ++ c).drop (pre.length + 8) =
            bodyB.take (L + c.length - (pre.length + 8)) := by
          rw [hshape, drop_append_exact (pre ++ DELIM) _ _ h12]
        rw [htd, htake, hmeta, hdrop] at hpush2
        have hrest := decoderRun_pass cs
          ⟨true, false, [],
            (utf8Run utf8Init (bodyB.take (L + c.length - (pre.length + 8)))).1, true⟩
          rfl rfl
        have hflatBody : flatAll cs = bodyB.drop (L + c.length - (pre.length + 8)) := by
          rw [hflat', drop_append_long (pre ++ DELIM) bodyB _ (by omega), h12]
        simp only [decoderRunFrom, hpush2]
        constructor
        · simp only [metasOf, List.filterMap_cons]
          simp only [metasOf] at hrest
          rw [hrest.2.2.2.2.1]
        · simp only [textsOf, List.map_cons, flatAll]
          simp only [textsOf] at hrest
          rw [hrest.2.2.2.2.2, hflatBody]
          have hjoin := utf8Run_append utf8Init
            (bodyB.take (L + c.length - (pre.length + 8)))
            (bodyB.drop (L + c.length - (pre.length + 8)))
          rw [List.take_append_drop] at hjoin
          rw [hjoin]

theorem decoderPush_cap (s : DecState) (c : List Nat)
    (hs : s.startedBody = false) (hd : s.decidedPlainText = false)
    (hne : c.length ≠ 0)
    (hnb : firstNonWhitespaceByte (s.buf ++ c) = none ∨
      firstNonWhitespaceByte (s.buf ++ c) = some 0x7B)
    (hlen : (s.buf ++ c).length > MAX_META_BYTES) :
    decoderPush s c =
      ({ startedBody := true, decidedPlainText := false, buf := [],
         td := (utf8Run s.td (s.buf ++ c)).1, ranDelimSearch := s.ranDelimSearch },
       ⟨(utf8Run s.td (s.buf ++ c)).2, none⟩) := by
  unfold decoderPush
  rw [if_neg hne]
  rcases hnb with hnb | hnb <;>
    · simp only [hnb, hs, hd, Bool.not_false, Bool.and_self, if_true,
        ne_eq, not_true_eq_false, if_false]
      rw [if_pos hlen]

theorem utf8Encode_ascii_replicate (n a : Nat) (ha : a < 0x80) :
    utf8Encode (List.replicate n a) = List.replicate n a := by
  induction n with
  | zero => rfl
  | succ n ih =>
    rw [List.replicate_succ]
    show utf8EncodeChar a ++ utf8Encode (List.replicate n a) = _
    rw [ih, show utf8EncodeChar a = [a] from by unfold utf8EncodeChar; rw [if_pos ha]]
    rfl

/-- The concrete metadata object `{"m":"x"}` of the C2 counterexample. -/
def ce2M : Json := Json.jobj [([0x6D], Json.jstr [0x78])]

/-- The concrete body of the C2 counterexample: 33000 copies of `a`. -/
def ce2B : List Nat := List.replicate 33000 0x61

/-- The C2 counterexample stream delivered as a single chunk:
`JSON(M) ++ 8×0x00 ++ UTF8(B)`, total length 9 + 8 + 33000 = 33017 bytes. -/
def ce2chunk : List Nat := utf8Encode (jsonStringify ce2M) ++ DELIM ++ utf8Encode ce2B

/-- C2, counterexample to the unconditional claim: delivering the framed
stream `JSON(M) + 8×0x00 + UTF8(B)` in one chunk of more than 32 KiB makes
the cap guard fire before the delimiter search, so no push ever returns
metadata (the claim demands metadata `= M` on exactly one push). -/
theorem claim_C2_counterexample :
    flatAll [ce2chunk] = utf8Encode (jsonStringify ce2M) ++ DELIM ++ utf8Encode ce2B ∧
    metasOf (runDecoder [ce2chunk]).2 = [] ∧
    metasOf (runDecoder [ce2chunk]).2 ≠ [ce2M] := by
  have hpre : (utf8Encode (jsonStringify ce2M)).length = 9 := by decide
  have hBlen : (utf8Encode ce2B).length = 33000 := by
    rw [show ce2B = List.replicate 33000 0x61 from rfl,
      utf8Encode_ascii_replicate 33000 0x61 (by omega), List.length_replicate]
  have hlen : ce2chunk.length = 33017 := by
    rw [show ce2chunk = utf8Encode (jsonStringify ce2M) ++ DELIM ++ utf8Encode ce2B
      from rfl]
    rw [List.length_append, List.length_append, hpre, hBlen]
    rfl
  have hne : ce2chunk.length ≠ 0 := by omega
  have hhead : ∃ t, hybridDecoderInit.buf ++ ce2chunk = 0x7B :: t := by
    rw [show hybridDecoderInit.buf = [] from rfl, List.nil_append,
      show ce2chunk = utf8Encode (jsonStringify ce2M) ++ DELIM ++ utf8Encode ce2B
        from rfl,
      show utf8Encode (jsonStringify ce2M) =
        0x7B :: (utf8Encode (jsonStringify ce2M)).tail from by decide]
    exact ⟨_, rfl⟩
  have hcap : (hybridDecoderInit.buf ++ ce2chunk).length > MAX_META_BYTES := by
    rw [show hybridDecoderInit.buf = [] from rfl, List.nil_append, hlen]
    show 33017 > 32768
    omega
  have hnb : firstNonWhitespaceByte (hybridDecoderInit.buf ++ ce2chunk) = none ∨
      firstNonWhitespaceByte (hybridDecoderInit.buf ++ ce2chunk) = some 0x7B := by
    obtain ⟨t, ht⟩ := hhead
    rw [ht, firstNonWs_brace]
    exact Or.inr rfl
  have hpush := decoderPush_cap hybridDecoderInit ce2chunk rfl rfl hne hnb hcap
  refine ⟨?_, ?_, ?_⟩
  · show ce2chunk ++ flatAll [] = _
    rw [show flatAll ([] : List (List Nat)) = [] from rfl, List.append_nil]
    rfl
  · show metasOf (decoderRunFrom hybridDecoderInit [ce2chunk]).2 = []
    simp only [decoderRunFrom, hpush]
    rfl
  · show metasOf (decoderRunFrom hybridDecoderInit [ce2chunk]).2 ≠ [ce2M]
    simp only [decoderRunFrom, hpush]
    simp [metasOf]

/-- C2 (amended): for every JSON object `M` and body text `B`, feeding
`JSON(M) ++ 8×0x00 ++ UTF8(B)` through a fresh hybrid stream decoder in
arbitrary chunk splits yields metadata equal to `M` on exactly one push
and concatenated text equal to `B` — provided that at every push made
before the delimiter has fully arrived the accumulated buffer stays within
the 32 KiB cap (`capOk`); without that proviso the cap guard can swallow
the preamble (see the counterexample). -/
theorem claim_C2_amended (fs : List (List Nat × Json)) (B : List Nat)
    (chunks : List (List Nat))
    (hM : JsonValid (Json.jobj fs))
    (hB : ∀ c ∈ B, ScalarVal c)
    (hchunks : flatAll chunks =
      utf8Encode (jsonStringify (Json.jobj fs)) ++ DELIM ++ utf8Encode B)
    (hcap : capOk (utf8Encode (jsonStringify (Json.jobj fs))).length 0 chunks) :
    metasOf (runDecoder chunks).2 = [Json.jobj fs] ∧
    textsOf (runDecoder chunks).2 = B := by
  have hpre0 : 0 ∉ utf8Encode (jsonStringify (Json.jobj fs)) :=
    utf8Encode_no_zero _ (fun c hc => (stringify_chars _ hM c hc).1)
  have hhead : ∃ p', utf8Encode (jsonStringify (Json.jobj fs)) = 0x7B :: p' := by
    rw [show jsonStringify (Json.jobj fs) =
      0x7B :: (stringifyFields fs ++ [0x7D]) from rfl]
    exact ⟨_, rfl⟩
  have hmeta : jsonParse (utf8DecodeFull utf8Init
      (utf8Encode (jsonStringify (Json.jobj fs)))) = some (Json.jobj fs) := by
    have hsc : ∀ c ∈ jsonStringify (Json.jobj fs), ScalarVal c :=
      fun c hc => (stringify_chars _ hM c hc).2
    unfold utf8DecodeFull
    rw [utf8Run_encode _ hsc]
    show jsonParse (jsonStringify (Json.jobj fs) ++ utf8Flush utf8Init) = _
    rw [show utf8Flush utf8Init = [] from rfl, List.append_nil, jsonParse_stringify]
  have h := decoderRun_framed_core _ _ _ hpre0 hhead hmeta chunks 0
    hybridDecoderInit (by omega) rfl rfl rfl rfl hcap (by rw [hchunks]; rfl)
  refine ⟨h.1, ?_⟩
  have h2 := h.2
  rw [utf8Run_encode B hB] at h2
  exact h2

theorem decoderPush_decide_plain (s : DecState) (c : List Nat) (b : Nat)
    (hs : s.startedBody = false) (hd : s.decidedPlainText = false)
    (hne : c.length ≠ 0)
    (hb : firstNonWhitespaceByte (s.buf ++ c) = some b) (hb7 : b ≠ 0x7B) :
    decoderPush s c =
      ({ startedBody := true, decidedPlainText := true, buf := [],
         td := (utf8Run s.td (s.buf ++ c)).1, ranDelimSearch := s.ranDelimSearch },
       ⟨(utf8Run s.td (s.buf ++ c)).2, none⟩) := by
  unfold decoderPush
  rw [if_neg hne]
  simp only [hb, hs, hd, Bool.not_false, Bool.and_self, if_true, ne_eq, hb7,
    not_false_eq_true, if_true]
  rfl

theorem firstNonWs_append_some (p q : List Nat) (b : Nat)
    (h : firstNonWhitespaceByte p = some b) :
    firstNonWhitespaceByte (p ++ q) = some b := by
  induction p with
  | nil => simp [firstNonWhitespaceByte] at h
  | cons x xs ih =>
    unfold firstNonWhitespaceByte at h
    split at h
    · rename_i hws
      rw [List.cons_append, show firstNonWhitespaceByte (x :: (xs ++ q)) =
        if x = 0x20 ∨ x = 0x09 ∨ x = 0x0A ∨ x = 0x0D then
          firstNonWhitespaceByte (xs ++ q) else some x from rfl, if_pos hws]
      exact ih h
    · rename_i hws
      rw [List.cons_append, show firstNonWhitespaceByte (x :: (xs ++ q)) =
        if x = 0x20 ∨ x = 0x09 ∨ x = 0x0A ∨ x = 0x0D then
          firstNonWhitespaceByte (xs ++ q) else some x from rfl, if_neg hws]
      exact h

theorem firstNonWs_append_none (p q : List Nat)
    (h : firstNonWhitespaceByte p = none) :
    firstNonWhitespaceByte (p ++ q) = firstNonWhitespaceByte q := by
  induction p with
  | nil => rfl
  | cons x xs ih =>
    unfold firstNonWhitespaceByte at h
    split at h
    · rename_i hws
      rw [List.cons_append, show firstNonWhitespaceByte (x :: (xs ++ q)) =
        if x = 0x20 ∨ x = 0x09 ∨ x = 0x0A ∨ x = 0x0D then
          firstNonWhitespaceByte (xs ++ q) else some x from rfl, if_pos hws]
      exact ih h
    · exact absurd h (by simp)

theorem firstNonWs_none_all_ws (p : List Nat) (h : firstNonWhitespaceByte p = none) :
    ∀ x ∈ p, x = 0x20 ∨ x = 0x09 ∨ x = 0x0A ∨ x = 0x0D := by
  induction p with
  | nil => simp
  | cons x xs ih =>
    unfold firstNonWhitespaceByte at h
    split at h
    · rename_i hws
      intro y hy
      rcases List.mem_cons.1 hy with rfl | hy
      · exact hws
      · exact ih h y hy
    · exact absurd h (by simp)

/-- Core of the plain-text-detection claim: while the bytes seen so far are
all whitespace and the first non-whitespace byte of the whole stream is not
`{`, the decoder never produces metadata and every byte is eventually
decoded as streamed UTF-8 text. -/
theorem decoderRun_plain_core (b : Nat) (hb7 : b ≠ 0x7B) :
    ∀ (cs : List (List Nat)) (s : DecState) (consumed : List Nat),
    s.startedBody = false → s.decidedPlainText = false →
    s.buf = consumed → s.td = utf8Init →
    firstNonWhitespaceByte consumed = none →
    firstNonWhitespaceByte (consumed ++ flatAll cs) = some b →
    metasOf (decoderRunFrom s cs).2 = [] ∧
    textsOf (decoderRunFrom s cs).2 = (utf8Run utf8Init (consumed ++ flatAll cs)).2 := by
  intro cs
  induction cs with
  | nil =>
    intro s consumed _ _ _ _ hcons hall
    exfalso
    rw [show flatAll ([] : List (List Nat)) = [] from rfl, List.append_nil, hcons] at hall
    exact Option.noConfusion hall
  | cons c cs ih =>
    intro s consumed hs hd hb htd hcons hall
    have hallassoc : (consumed ++ c) ++ flatAll cs = consumed ++ flatAll (c :: cs) := by
      rw [show flatAll (c :: cs) = c ++ flatAll cs from rfl, List.append_assoc]
    by_cases hc : c.length = 0
    · have hc0 : c = [] := List.length_eq_zero.1 hc
      subst hc0
      have hpush := decoderPush_empty s [] rfl
      have hrec := ih s consumed hs hd hb htd hcons
        (by rw [show flatAll ([] :: cs) = [] ++ flatAll cs from rfl, List.nil_append] at hall
            exact hall)
      simp only [decoderRunFrom, hpush]
      rw [show flatAll ([] :: cs) = [] ++ flatAll cs from rfl, List.nil_append]
      constructor
      · simp only [metasOf, List.filterMap_cons]
        exact hrec.1
      · simp only [textsOf, List.map_cons, flatAll, List.nil_append]
        exact hrec.2
    · cases hfw : firstNonWhitespaceByte (consumed ++ c) with
      | none =>
        -- decision still pending: everything so far is whitespace
        by_cases hcap : (consumed ++ c).length > MAX_META_BYTES
        · -- oversized whitespace preamble: the cap emits it and goes passthrough
          have hpush := decoderPush_cap s c hs hd hc
            (by rw [hb]; exact Or.inl hfw) (by rw [hb]; exact hcap)
          rw [hb, htd] at hpush
          have hrest := decoderRun_pass cs
            ⟨true, false, [], (utf8Run utf8Init (consumed ++ c)).1, s.ranDelimSearch⟩
            rfl rfl
          simp only [decoderRunFrom, hpush]
          constructor
          · simp only [metasOf, List.filterMap_cons]
            simp only [metasOf] at hrest
            exact hrest.2.2.2.2.1
          · simp only [textsOf, List.map_cons, flatAll]
            simp only [textsOf] at hrest
            rw [hrest.2.2.2.2.2, ← List.append_assoc,
              utf8Run_append utf8Init (consumed ++ c) (flatAll cs)]
        · -- under the cap: buffer and keep waiting (no zeros in whitespace)
          have h0 : 0 ∉ consumed ++ c := by
            intro h0
            rcases firstNonWs_none_all_ws _ hfw 0 h0 with h | h | h | h <;> omega
          have hidx : indexOfSubarray (consumed ++ c) DELIM = none := by
            simpa using indexOfSubarray_pre_zeros (consumed ++ c) 0 (by omega) h0
          have hpush := decoderPush_frame s c hs hd hc
            (by rw [hb]; exact Or.inl hfw) (by rw [hb]; omega)
          rw [hb, hidx] at hpush
          have hpush2 : decoderPush s c =
              (⟨false, false, consumed ++ c, s.td, true⟩, ⟨[], none⟩) := hpush
          have hrec := ih ⟨false, false, consumed ++ c, s.td, true⟩ (consumed ++ c)
            rfl rfl rfl (by simp only []; exact htd) hfw
            (by rw [hallassoc]; exact hall)
          simp only [decoderRunFrom, hpush2]
          constructor
          · simp only [metasOf, List.filterMap_cons]
            exact hrec.1
          · simp only [textsOf, List.map_cons, flatAll, List.nil_append]
            simp only [textsOf] at hrec
            rw [hrec.2, List.append_assoc]
      | some x =>
        -- the first non-whitespace byte arrived: it is `b`, so plain text
        have hx : x = b := by
          have h1 := firstNonWs_append_some (consumed ++ c) (flatAll cs) x hfw
          rw [hallassoc, hall] at h1
          exact (Option.some.inj h1).symm
        subst hx
        have hpush := decoderPush_decide_plain s c x hs hd hc (by rw [hb]; exact hfw) hb7
        rw [hb, htd] at hpush
        have hrest := decoderRun_pass cs
          ⟨true, true, [], (utf8Run utf8Init (consumed ++ c)).1, s.ranDelimSearch⟩
          rfl rfl
        simp only [decoderRunFrom, hpush]
        constructor
        · simp only [metasOf, List.filterMap_cons]
          simp only [metasOf] at hrest
          exact hrest.2.2.2.2.1
        · simp only [textsOf, List.map_cons, flatAll]
          simp only [textsOf] at hrest
          rw [hrest.2.2.2.2.2, ← List.append_assoc,
            utf8Run_append utf8Init (consumed ++ c) (flatAll cs)]

/-- C4, counterexample to the "no delimiter search occurs" part: when a
chunk containing only whitespace arrives first, the decoder has not yet
seen a non-whitespace byte, so it buffers the bytes and runs the delimiter
search over them even though the stream's first non-whitespace byte turns
out not to be `{`. -/
theorem claim_C4_counterexample :
    firstNonWhitespaceByte (flatAll [[0x20], [0x41]]) = some 0x41 ∧
    (0x41 : Nat) ≠ 0x7B ∧
    ((runDecoder [[0x20], [0x41]]).1).ranDelimSearch = true :=
  ⟨by decide, by decide, by decide⟩

/-- C4 (amended): any byte stream whose first non-whitespace byte is not
`{` is never treated as framed, regardless of chunking: no push ever
returns metadata and all bytes are decoded as streamed UTF-8 text.  (The
original claim's further assertion that no delimiter search ever occurs
fails: the search does run on pushes made while only whitespace has been
seen — see the counterexample.) -/
theorem claim_C4_amended (chunks : List (List Nat)) (b : Nat)
    (hb : firstNonWhitespaceByte (flatAll chunks) = some b) (hb7 : b ≠ 0x7B) :
    metasOf (runDecoder chunks).2 = [] ∧
    textsOf (runDecoder chunks).2 = (utf8Run utf8Init (flatAll chunks)).2 := by
  have h := decoderRun_plain_core b hb7 chunks hybridDecoderInit [] rfl rfl rfl rfl rfl
    (by rw [List.nil_append]; exact hb)
  rw [List.nil_append] at h
  exact h

theorem claim_C4_amended_witness :
    metasOf (runDecoder [[0x09, 0x48], [0x69]]).2 = [] ∧
    textsOf (runDecoder [[0x09, 0x48], [0x69]]).2 =
      (utf8Run utf8Init (flatAll [[0x09, 0x48], [0x69]])).2 :=
  claim_C4_amended [[0x09, 0x48], [0x69]] 0x48 (by decide) (by decide)

theorem claim_C2_amended_witness :
    JsonValid (Json.jobj [([0x6D], Json.jstr [0x78])]) ∧
    (∀ c ∈ [0x48, 0xE9], ScalarVal c) ∧
    flatAll [[0x7B, 0x22, 0x6D, 0x22, 0x3A], [0x22, 0x78, 0x22, 0x7D, 0, 0, 0],
        [0, 0, 0, 0, 0, 0x48, 0xC3], [0xA9]] =
      utf8Encode (jsonStringify (Json.jobj [([0x6D], Json.jstr [0x78])])) ++ DELIM ++
        utf8Encode [0x48, 0xE9] ∧
    capOk (utf8Encode (jsonStringify (Json.jobj [([0x6D], Json.jstr [0x78])]))).length 0
      [[0x7B, 0x22, 0x6D, 0x22, 0x3A], [0x22, 0x78, 0x22, 0x7D, 0, 0, 0],
        [0, 0, 0, 0, 0, 0x48, 0xC3], [0xA9]] ∧
    metasOf (runDecoder [[0x7B, 0x22, 0x6D, 0x22, 0x3A], [0x22, 0x78, 0x22, 0x7D, 0, 0, 0],
        [0, 0, 0, 0, 0, 0x48, 0xC3], [0xA9]]).2 = [Json.jobj [([0x6D], Json.jstr [0x78])]] ∧
    textsOf (runDecoder [[0x7B, 0x22, 0x6D, 0x22, 0x3A], [0x22, 0x78, 0x22, 0x7D, 0, 0, 0],
        [0, 0, 0, 0, 0, 0x48, 0xC3], [0xA9]]).2 = [0x48, 0xE9] := by
  have hM : JsonValid (Json.jobj [([0x6D], Json.jstr [0x78])]) := by
    simp only [JsonValid, JsonValidFields]
    exact ⟨⟨by decide, by decide, trivial⟩, by decide⟩
  have hB : ∀ c ∈ [0x48, 0xE9], ScalarVal c := by decide
  have hch : flatAll [[0x7B, 0x22, 0x6D, 0x22, 0x3A], [0x22, 0x78, 0x22, 0x7D, 0, 0, 0],
      [0, 0, 0, 0, 0, 0x48, 0xC3], [0xA9]] =
      utf8Encode (jsonStringify (Json.jobj [([0x6D], Json.jstr [0x78])])) ++ DELIM ++
        utf8Encode [0x48, 0xE9] := by decide
  have hcap : capOk (utf8Encode (jsonStringify (Json.jobj [([0x6D], Json.jstr [0x78])]))).length 0
      [[0x7B, 0x22, 0x6D, 0x22, 0x3A], [0x22, 0x78, 0x22, 0x7D, 0, 0, 0],
        [0, 0, 0, 0, 0, 0x48, 0xC3], [0xA9]] := by decide
  have h := claim_C2_amended [([0x6D], Json.jstr [0x78])] [0x48, 0xE9]
    [[0x7B, 0x22, 0x6D, 0x22, 0x3A], [0x22, 0x78, 0x22, 0x7D, 0, 0, 0],
      [0, 0, 0, 0, 0, 0x48, 0xC3], [0xA9]] hM hB hch hcap
  exact ⟨hM, hB, hch, hcap, h.1, h.2⟩

theorem decoderPush_buf_bound (s : DecState) (c : List Nat)
    (h : s.buf.length ≤ MAX_META_BYTES) :
    ((decoderPush s c).1).buf.length ≤ MAX_META_BYTES := by
  by_cases h0 : c.length = 0
  · rw [decoderPush_empty s c h0]
    exact h
  · cases hs : s.startedBody with
    | true =>
      rw [decoderPush_pass s c hs h0]
      exact Nat.zero_le _
    | false =>
      cases hd : s.decidedPlainText with
      | true =>
        unfold decoderPush
        rw [if_neg h0]
        simp only [hs, hd, Bool.not_false, Bool.not_true, Bool.and_false,
          Bool.false_eq_true, if_false]
        split
        · split
          · exact Nat.zero_le _
          · split
            · simp only [List.length_append] at *
              omega
            · exact Nat.zero_le _
        · exact Nat.zero_le _
      | false =>
        cases hfw : firstNonWhitespaceByte (s.buf ++ c) with
        | some b =>
          by_cases hb : b = 0x7B
          · subst hb
            by_cases hcap : (s.buf ++ c).length > MAX_META_BYTES
            · rw [decoderPush_cap s c hs hd h0 (Or.inr hfw) hcap]
              exact Nat.zero_le _
            · rw [decoderPush_frame s c hs hd h0 (Or.inr hfw) (by omega)]
              split
              · simp only [List.length_append] at hcap ⊢
                omega
              · exact Nat.zero_le _
          · rw [decoderPush_decide_plain s c b hs hd h0 hfw hb]
            exact Nat.zero_le _
        | none =>
          by_cases hcap : (s.buf ++ c).length > MAX_META_BYTES
          · rw [decoderPush_cap s c hs hd h0 (Or.inl hfw) hcap]
            exact Nat.zero_le _
          · rw [decoderPush_frame s c hs hd h0 (Or.inl hfw) (by omega)]
            split
            · simp only [List.length_append] at hcap ⊢
              omega
            · exact Nat.zero_le _

theorem runDecoder_buf_bound (chunks : List (List Nat)) :
    ((runDecoder chunks).1).buf.length ≤ MAX_META_BYTES := by
  suffices h : ∀ (cs : List (List Nat)) (s : DecState), s.buf.length ≤ MAX_META_BYTES →
      ((decoderRunFrom s cs).1).buf.length ≤ MAX_META_BYTES by
    exact h chunks hybridDecoderInit (by simp [hybridDecoderInit, MAX_META_BYTES])
  intro cs
  induction cs with
  | nil => intro s hs; exact hs
  | cons c cs ih => intro s hs; exact ih _ (decoderPush_buf_bound s c hs)

theorem listHasPrefix_exists (needle hay : List Nat)
    (h : listHasPrefix needle hay = true) : ∃ suf, hay = needle ++ suf := by
  induction needle generalizing hay with
  | nil => exact ⟨hay, rfl⟩
  | cons a as ih =>
    cases hay with
    | nil => exact absurd h (by simp [listHasPrefix])
    | cons b bs =>
      rw [show listHasPrefix (a :: as) (b :: bs) = (a == b && listHasPrefix as bs)
        from rfl, Bool.and_eq_true, beq_iff_eq] at h
      obtain ⟨suf, hsuf⟩ := ih bs h.2
      exact ⟨suf, by rw [h.1, hsuf, List.cons_append]⟩

theorem indexOfSubarray_some_infix (hay needle : List Nat) :
    ∀ i : Nat, indexOfSubarray hay needle = some i →
    ∃ pre suf, hay = pre ++ needle ++ suf := by
  induction hay with
  | nil =>
    intro i h
    unfold indexOfSubarray at h
    by_cases hp : listHasPrefix needle [] = true
    · obtain ⟨suf, hsuf⟩ := listHasPrefix_exists needle [] hp
      exact ⟨[], suf, hsuf⟩
    · rw [if_neg hp] at h
      exact absurd h (by simp)
  | cons b bs ih =>
    intro i h
    unfold indexOfSubarray at h
    by_cases hp : listHasPrefix needle (b :: bs) = true
    · obtain ⟨suf, hsuf⟩ := listHasPrefix_exists needle (b :: bs) hp
      exact ⟨[], suf, by rw [hsuf, List.nil_append]⟩
    · rw [if_neg hp] at h
      have h2 : Option.map (fun x => x + 1) (indexOfSubarray bs needle) = some i := h
      cases hidx : indexOfSubarray bs needle with
      | none =>
        rw [hidx] at h2
        exact absurd h2 (by simp)
      | some j =>
        obtain ⟨pre, suf, hps⟩ := ih j hidx
        exact ⟨b :: pre, suf, by rw [hps, List.cons_append, List.cons_append]⟩

/-- Core of the cap claim: starting from an undecided state whose whole
remaining stream never contains the 8-byte zero delimiter as a subarray
and whose first non-whitespace byte, if any, is `{`, once the total
length exceeds the 32 KiB cap the decoder switches to passthrough and
every byte is emitted as streamed UTF-8 text, with no metadata. -/
theorem decoderRun_cap_core :
    ∀ (cs : List (List Nat)) (s : DecState) (consumed : List Nat),
    s.startedBody = false → s.decidedPlainText = false →
    s.buf = consumed → s.td = utf8Init →
    (firstNonWhitespaceByte (consumed ++ flatAll cs) = none ∨
      firstNonWhitespaceByte (consumed ++ flatAll cs) = some 0x7B) →
    (¬ ∃ pre suf, consumed ++ flatAll cs = pre ++ DELIM ++ suf) →
    consumed.length ≤ MAX_META_BYTES →
    MAX_META_BYTES < (consumed ++ flatAll cs).length →
    metasOf (decoderRunFrom s cs).2 = [] ∧
    textsOf (decoderRunFrom s cs).2 = (utf8Run utf8Init (consumed ++ flatAll cs)).2 ∧
    ((decoderRunFrom s cs).1).startedBody = true := by
  intro cs
  induction cs with
  | nil =>
    intro s consumed _ _ _ _ _ _ hcons hbig
    exfalso
    rw [show flatAll ([] : List (List Nat)) = [] from rfl, List.append_nil] at hbig
    omega
  | cons c cs ih =>
    intro s consumed hs hd hb htd hnb hnod hcons hbig
    have hallassoc : (consumed ++ c) ++ flatAll cs = consumed ++ flatAll (c :: cs) := by
      rw [show flatAll (c :: cs) = c ++ flatAll cs from rfl, List.append_assoc]
    by_cases hc : c.length = 0
    · have hc0 : c = [] := List.length_eq_zero.1 hc
      subst hc0
      have hpush := decoderPush_empty s [] rfl
      have hnil : flatAll ([] :: cs) = flatAll cs := by
        rw [show flatAll ([] :: cs) = [] ++ flatAll cs from rfl, List.nil_append]
      rw [hnil] at hnb hnod hbig
      have hrec := ih s consumed hs hd hb htd hnb hnod hcons hbig
      simp only [decoderRunFrom, hpush]
      rw [hnil]
      refine ⟨?_, ?_, hrec.2.2⟩
      · simp only [metasOf, List.filterMap_cons]
        exact hrec.1
      · simp only [textsOf, List.map_cons, flatAll, List.nil_append]
        simp only [textsOf] at hrec
        exact hrec.2.1
    · have hnbpre : firstNonWhitespaceByte (consumed ++ c) = none ∨
          firstNonWhitespaceByte (consumed ++ c) = some 0x7B := by
        cases hfw : firstNonWhitespaceByte (consumed ++ c) with
        | none => exact Or.inl rfl
        | some x =>
          have h1 := firstNonWs_append_some (consumed ++ c) (flatAll cs) x hfw
          rw [hallassoc] at h1
          rcases hnb with hnb | hnb
          · rw [hnb] at h1
            exact Option.noConfusion h1
          · rw [hnb] at h1
            have hx : x = 0x7B := (Option.some.inj h1).symm
            subst hx
            exact Or.inr rfl
      by_cases hcap : (consumed ++ c).length > MAX_META_BYTES
      · -- the cap fires on this push: emit everything seen, go passthrough
        have hpush := decoderPush_cap s c hs hd hc (by rw [hb]; exact hnbpre)
          (by rw [hb]; exact hcap)
        rw [hb, htd] at hpush
        have hrest := decoderRun_pass cs
          ⟨true, false, [], (utf8Run utf8Init (consumed ++ c)).1, s.ranDelimSearch⟩
          rfl rfl
        simp only [decoderRunFrom, hpush]
        refine ⟨?_, ?_, hrest.1⟩
        · simp only [metasOf, List.filterMap_cons]
          simp only [metasOf] at hrest
          exact hrest.2.2.2.2.1
        · simp only [textsOf, List.map_cons, flatAll]
          simp only [textsOf] at hrest
          rw [hrest.2.2.2.2.2, ← List.append_assoc,
            utf8Run_append utf8Init (consumed ++ c) (flatAll cs)]
      · -- still under the cap: no delimiter in the buffer, keep buffering
        have hidx : indexOfSubarray (consumed ++ c) DELIM = none := by
          cases hix : indexOfSubarray (consumed ++ c) DELIM with
          | none => rfl
          | some i =>
            obtain ⟨pre, suf, hps⟩ := indexOfSubarray_some_infix (consumed ++ c) DELIM i hix
            refine absurd ⟨pre, suf ++ flatAll cs, ?_⟩ hnod
            rw [← hallassoc, hps]
            simp [List.append_assoc]
        have hpush := decoderPush_frame s c hs hd hc (by rw [hb]; exact hnbpre)
          (by rw [hb]; omega)
        rw [hb, hidx] at hpush
        have hpush2 : decoderPush s c =
            (⟨false, false, consumed ++ c, s.td, true⟩, ⟨[], none⟩) := hpush
        have hrec := ih ⟨false, false, consumed ++ c, s.td, true⟩ (consumed ++ c)
          rfl rfl rfl (by simp only []; exact htd)
          (by rw [hallassoc]; exact hnb)
          (by rw [hallassoc]; exact hnod)
          (by rw [List.length_append] at hcap ⊢; omega)
          (by rw [hallassoc]; exact hbig)
        simp only [decoderRunFrom, hpush2]
        refine ⟨?_, ?_, hrec.2.2⟩
        · simp only [metasOf, List.filterMap_cons]
          exact hrec.1
        · simp only [textsOf, List.map_cons, flatAll, List.nil_append]
          simp only [textsOf] at hrec
          rw [hrec.2.1, List.append_assoc]

set_option maxRecDepth 4000 in
/-- C5, counterexample to the "at least 32 KiB" threshold: a framed-mode
stream that accumulates exactly 32768 bytes with no delimiter does NOT
switch to passthrough — the cap test is strict (`> 32 * 1024`), so the
decoder keeps the whole 32 KiB buffered, emits nothing, and stays in the
framing phase. -/
theorem claim_C5_counterexample :
    32 * 1024 ≤ (flatAll [List.replicate 32768 0x7B]).length ∧
    ((runDecoder [List.replicate 32768 0x7B]).1).startedBody = false ∧
    ((runDecoder [List.replicate 32768 0x7B]).1).buf = List.replicate 32768 0x7B ∧
    metasOf (runDecoder [List.replicate 32768 0x7B]).2 = [] ∧
    textsOf (runDecoder [List.replicate 32768 0x7B]).2 = [] := by
  have hflat : flatAll [List.replicate 32768 0x7B] = List.replicate 32768 0x7B := by
    show List.replicate 32768 0x7B ++ flatAll [] = _
    rw [show flatAll ([] : List (List Nat)) = [] from rfl, List.append_nil]
  have hne : (List.replicate 32768 0x7B : List Nat).length ≠ 0 := by
    rw [List.length_replicate]
    omega
  have hrepl : (List.replicate 32768 0x7B : List Nat) =
      0x7B :: List.replicate 32767 0x7B := by
    rw [show (32768 : Nat) = 32767 + 1 from by norm_num, List.replicate_succ]
  have hnb : firstNonWhitespaceByte (hybridDecoderInit.buf ++ List.replicate 32768 0x7B) =
      none ∨
      firstNonWhitespaceByte (hybridDecoderInit.buf ++ List.replicate 32768 0x7B) =
      some 0x7B := by
    rw [show hybridDecoderInit.buf = [] from rfl, List.nil_append, hrepl, firstNonWs_brace]
    exact Or.inr rfl
  have hcap : (hybridDecoderInit.buf ++ List.replicate 32768 0x7B).length ≤
      MAX_META_BYTES := by
    rw [show hybridDecoderInit.buf = [] from rfl, List.nil_append, List.length_replicate]
    show 32768 ≤ 32 * 1024
    omega
  have h0 : 0 ∉ hybridDecoderInit.buf ++ List.replicate 32768 0x7B := by
    rw [show hybridDecoderInit.buf = [] from rfl, List.nil_append]
    intro hmem
    have := List.eq_of_mem_replicate hmem
    omega
  have hidx : indexOfSubarray (hybridDecoderInit.buf ++ List.replicate 32768 0x7B)
      DELIM = none := by
    have hidx0 := indexOfSubarray_pre_zeros
      (hybridDecoderInit.buf ++ List.replicate 32768 0x7B) 0 (by omega) h0
    rw [show List.replicate 0 (0 : Nat) = [] from rfl, List.append_nil] at hidx0
    exact hidx0
  have hpush := decoderPush_frame hybridDecoderInit (List.replicate 32768 0x7B)
    rfl rfl hne hnb hcap
  rw [hidx] at hpush
  have hpush2 : decoderPush hybridDecoderInit (List.replicate 32768 0x7B) =
      (⟨false, false, hybridDecoderInit.buf ++ List.replicate 32768 0x7B,
        hybridDecoderInit.td, true⟩, ⟨[], none⟩) := hpush
  refine ⟨?_, ?_, ?_, ?_, ?_⟩
  · rw [hflat, List.length_replicate]
  · show ((decoderRunFrom hybridDecoderInit [List.replicate 32768 0x7B]).1).startedBody = false
    simp only [decoderRunFrom, hpush2]
  · show ((decoderRunFrom hybridDecoderInit [List.replicate 32768 0x7B]).1).buf = _
    simp only [decoderRunFrom, hpush2]
    rw [show hybridDecoderInit.buf = [] from rfl, List.nil_append]
  · show metasOf (decoderRunFrom hybridDecoderInit [List.replicate 32768 0x7B]).2 = []
    simp only [decoderRunFrom, hpush2]
    rfl
  · show textsOf (decoderRunFrom hybridDecoderInit [List.replicate 32768 0x7B]).2 = []
    simp only [decoderRunFrom, hpush2]
    rfl

/-- C5 (amended): for every stream in the framing phase (first
non-whitespace byte, if any, is `{`) in which the 8-byte zero delimiter
never occurs as a subarray, whose total length STRICTLY exceeds the
32 KiB cap, the decoder switches to passthrough: the accumulated buffer
is emitted as body text (every byte of the stream is decoded as streamed
UTF-8 text), no metadata is ever produced, and the internal buffer never
exceeds 32 KiB on any stream.  (The original claim's "at least 32 KiB"
threshold is wrong — the cap test is strict, see the counterexample —
and the buffer bound is in fact the cap itself, not "the cap plus one
chunk".) -/
theorem claim_C5_amended (chunks : List (List Nat))
    (hnb : firstNonWhitespaceByte (flatAll chunks) = none ∨
      firstNonWhitespaceByte (flatAll chunks) = some 0x7B)
    (hnod : ¬ ∃ pre suf, flatAll chunks = pre ++ DELIM ++ suf)
    (hbig : MAX_META_BYTES < (flatAll chunks).length) :
    metasOf (runDecoder chunks).2 = [] ∧
    textsOf (runDecoder chunks).2 = (utf8Run utf8Init (flatAll chunks)).2 ∧
    ((runDecoder chunks).1).startedBody = true ∧
    (∀ cs : List (List Nat), ((runDecoder cs).1).buf.length ≤ MAX_META_BYTES) := by
  have h := decoderRun_cap_core chunks hybridDecoderInit [] rfl rfl rfl rfl
    (by rw [List.nil_append]; exact hnb) (by rw [List.nil_append]; exact hnod)
    (by simp) (by rw [List.nil_append]; exact hbig)
  rw [List.nil_append] at h
  exact ⟨h.1, h.2.1, h.2.2, runDecoder_buf_bound⟩

theorem claim_C5_amended_witness :
    (firstNonWhitespaceByte (flatAll [List.replicate 33000 0x7B]) = none ∨
      firstNonWhitespaceByte (flatAll [List.replicate 33000 0x7B]) = some 0x7B) ∧
    (¬ ∃ pre suf, flatAll [List.replicate 33000 0x7B] = pre ++ DELIM ++ suf) ∧
    MAX_META_BYTES < (flatAll [List.replicate 33000 0x7B]).length ∧
    (metasOf (runDecoder [List.replicate 33000 0x7B]).2 = [] ∧
     textsOf (runDecoder [List.replicate 33000 0x7B]).2 =
       (utf8Run utf8Init (flatAll [List.replicate 33000 0x7B])).2 ∧
     ((runDecoder [List.replicate 33000 0x7B]).1).startedBody = true ∧
     (∀ cs : List (List Nat), ((runDecoder cs).1).buf.length ≤ MAX_META_BYTES)) := by
  have hflat : flatAll [List.replicate 33000 0x7B] = List.replicate 33000 0x7B := by
    show List.replicate 33000 0x7B ++ flatAll [] = _
    rw [show flatAll ([] : List (List Nat)) = [] from rfl, List.append_nil]
  have hnb : firstNonWhitespaceByte (flatAll [List.replicate 33000 0x7B]) = none ∨
      firstNonWhitespaceByte (flatAll [List.replicate 33000 0x7B]) = some 0x7B := by
    rw [hflat, show (33000 : Nat) = 32999 + 1 from by norm_num, List.replicate_succ,
      firstNonWs_brace]
    exact Or.inr rfl
  have hnod : ¬ ∃ pre suf, flatAll [List.replicate 33000 0x7B] = pre ++ DELIM ++ suf := by
    rw [hflat]
    rintro ⟨pre, suf, heq⟩
    have h0 : (0 : Nat) ∈ List.replicate 33000 0x7B := by
      rw [heq]
      exact List.mem_append_left _ (List.mem_append_right _ (by decide))
    have := List.eq_of_mem_replicate h0
    omega
  have hbig : MAX_META_BYTES < (flatAll [List.replicate 33000 0x7B]).length := by
    rw [hflat, List.length_replicate]
    show 32 * 1024 < 33000
    omega
  exact ⟨hnb, hnod, hbig, claim_C5_amended [List.replicate 33000 0x7B] hnb hnod hbig⟩

/- ===== sendMessageStream loop, timers, and transcript helpers =====
Strings are modelled as lists of Unicode scalar values.  `TextDecoder`
output, `trim`, and `toLowerCase` are platform built-ins: `trim` removes
the ECMAScript whitespace set, and `toLowerCase` is modelled on the ASCII
range (the only range the compared literals use). -/

/-- `"Thinking…"`, the assistant placeholder. -/
def thinkingText : List Nat := [0x54, 0x68, 0x69, 0x6E, 0x6B, 0x69, 0x6E, 0x67, 0x2026]

/-- `"⚠️ stream ended with no content"`. -/
def emptyWarnText : List Nat :=
  [0x26A0, 0xFE0F, 0x20, 0x73, 0x74, 0x72, 0x65, 0x61, 0x6D, 0x20, 0x65, 0x6E,
   0x64, 0x65, 0x64, 0x20, 0x77, 0x69, 0x74, 0x68, 0x20, 0x6E, 0x6F, 0x20,
   0x63, 0x6F, 0x6E, 0x74, 0x65, 0x6E, 0x74]

/-- `"⏹️ Stopped."`, written by `abortInFlight`. -/
def stoppedText : List Nat :=
  [0x23F9, 0xFE0F, 0x20, 0x53, 0x74, 0x6F, 0x70, 0x70, 0x65, 0x64, 0x2E]

/-- `` `⚠️ streaming failed: ${msg}` ``, written by `replaceAssistantWithError`. -/
def errorText (emsg : List Nat) : List Nat :=
  [0x26A0, 0xFE0F, 0x20, 0x73, 0x74, 0x72, 0x65, 0x61, 0x6D, 0x69, 0x6E, 0x67,
   0x20, 0x66, 0x61, 0x69, 0x6C, 0x65, 0x64, 0x3A, 0x20] ++ emsg

/-- The ECMAScript `String.prototype.trim` whitespace set. -/
def isJsWhitespace (c : Nat) : Bool :=
  c == 0x09 || c == 0x0A || c == 0x0B || c == 0x0C || c == 0x0D || c == 0x20 ||
  c == 0xA0 || c == 0x1680 || (0x2000 ≤ c && c ≤ 0x200A) || c == 0x2028 ||
  c == 0x2029 || c == 0x202F || c == 0x205F || c == 0x3000 || c == 0xFEFF

/-- Drop leading JS whitespace. -/
def trimStartText : List Nat → List Nat
  | [] => []
  | c :: r => if isJsWhitespace c then trimStartText r else c :: r

/-- `s.trim()`. -/
def trimText (s : List Nat) : List Nat :=
  ((trimStartText ((trimStartText s).reverse)).reverse)

/-- `toLowerCase` on the ASCII range. -/
def asciiToLower (c : Nat) : Nat := if 0x41 ≤ c ∧ c ≤ 0x5A then c + 32 else c

/-- `"[browsing"` lower-cased. -/
def browsingStem : List Nat :=
  [0x5B, 0x62, 0x72, 0x6F, 0x77, 0x73, 0x69, 0x6E, 0x67]

/-- `"[browsing...]"` lower-cased. -/
def browsingFull : List Nat := browsingStem ++ [0x2E, 0x2E, 0x2E, 0x5D]

/-- `looksLikeBrowsingPlaceholder(s)`: trim, lower-case, then compare with
`"[browsing...]"` or test the `"[browsing"` prefix. -/
def looksLikeBrowsingPlaceholder (s : List Nat) : Bool :=
  let t := (trimText s).map asciiToLower
  t == browsingFull || listHasPrefix browsingStem t

/-- The two timeout handles held by `createStreamTimers` (the stored value
is the arming delay in milliseconds; `none` is an unarmed timer). -/
structure TimerState where
  firstByteTimer : Option Nat
  progressTimer : Option Nat
deriving Repr, DecidableEq

/-- Fresh timers. -/
def timersInit : TimerState := ⟨none, none⟩

/-- `timers.clear()`. -/
def timersClear (_ : TimerState) : TimerState := ⟨none, none⟩

/-- `timers.armFirstByte(ms, cb)`. -/
def armFirstByte (t : TimerState) (ms : Nat) : TimerState := ⟨some ms, t.progressTimer⟩

/-- `timers.disarmFirstByte()`. -/
def disarmFirstByte (t : TimerState) : TimerState := ⟨none, t.progressTimer⟩

/-- `timers.armProgress(ms, cb)`. -/
def armProgress (t : TimerState) (ms : Nat) : TimerState := ⟨t.firstByteTimer, some ms⟩

/-- How one `sendMessageStream` invocation ended (still `running` while the
read loop is in progress). `discarded` is an early `return` on a stale
thread token or an abort; `polled` means `pollForFinalAssistant` was
invoked; `committed` means the streamed text was kept as final. -/
inductive Phase where
  | running | discarded | emptyWarned | polled | committed | errored
deriving Repr, DecidableEq

/-- The mutable local state of one `sendMessageStream` invocation: the
hybrid decoder, the stream timers, `acc`/`pending`, the 50 ms flush timer
flag, the `gotAnyByte`/`sawAnyText` flags, the trace `muts` of texts
written to the assistant placeholder (each entry one `updateAssistantText`
call), and the phase. -/
structure LoopState where
  dec : DecState
  timers : TimerState
  acc : List Nat
  pending : List Nat
  flushTimer : Bool
  gotAnyByte : Bool
  sawAnyText : Bool
  muts : List (List Nat)
  phase : Phase

/-- State after `timers.armFirstByte(30_000, abort)`, just before the read
loop starts. -/
def loopInit : LoopState :=
  { dec := hybridDecoderInit, timers := armFirstByte timersInit 30000,
    acc := [], pending := [], flushTimer := false,
    gotAnyByte := false, sawAnyText := false, muts := [], phase := Phase.running }

/-- `flush()`: move `pending` into `acc` and write the accumulated text
(or the placeholder if it is empty) to the assistant message. -/
def flushBuf (s : LoopState) : LoopState :=
  if s.pending = [] then s
  else
    { s with
      acc := s.acc ++ s.pending
      pending := []
      muts := s.muts ++ [if s.acc ++ s.pending = [] then thinkingText else s.acc ++ s.pending] }

/-- One observable event of the read loop: a `reader.read()` that yields
bytes (`activeNow` records whether the active-thread token still matches
at that moment), the 50 ms flush timer firing, the stream ending
(`done`), or the fetch/read failing (`fail isAbort activeNow msg`). -/
inductive StreamEvent where
  | chunk (bytes : List Nat) (activeNow : Bool)
  | flushFire
  | done (activeAtEnd : Bool)
  | fail (isAbort : Bool) (activeNow : Bool) (emsg : List Nat)
deriving Repr, DecidableEq

/-- One step of `sendMessageStream`'s read loop (lines 805-872 of
`ChatApp.tsx`).  After the function has returned (`phase ≠ running`) only
a still-armed 50 ms flush timer can run; every other event is inert. -/
def step (s : LoopState) (e : StreamEvent) : LoopState :=
  if s.phase ≠ Phase.running then
    match e with
    | StreamEvent.flushFire =>
      if s.flushTimer then flushBuf { s with flushTimer := false } else s
    | _ => s
  else
    match e with
    | StreamEvent.chunk bytes active =>
      if active = false then
        { s with timers := timersClear s.timers, phase := Phase.discarded }
      else
        let s1 :=
          if bytes.length ≠ 0 then
            if s.gotAnyByte = false then
              { s with
                gotAnyByte := true
                timers := armProgress (disarmFirstByte s.timers) 120000 }
            else { s with timers := armProgress s.timers 120000 }
          else s
        let p := decoderPush s1.dec bytes
        let s2 := { s1 with dec := p.1 }
        if p.2.text ≠ [] then
          let s3 := { s2 with sawAnyText := true, pending := s2.pending ++ p.2.text }
          if 2048 ≤ s3.pending.length then flushBuf s3
          else { s3 with flushTimer := true }
        else s2
    | StreamEvent.flushFire =>
      if s.flushTimer then flushBuf { s with flushTimer := false } else s
    | StreamEvent.done active =>
      let s1 := flushBuf { s with flushTimer := false }
      let s2 := { s1 with timers := timersClear s1.timers }
      if active = false then { s2 with phase := Phase.discarded }
      else if s2.gotAnyByte = false then
        { s2 with muts := s2.muts ++ [emptyWarnText], phase := Phase.emptyWarned }
      else if s2.sawAnyText = false then { s2 with phase := Phase.polled }
      else
        let finalText := trimText s2.acc
        if finalText = [] ∨ looksLikeBrowsingPlaceholder finalText = true then
          if finalText ≠ [] then
            { s2 with muts := s2.muts ++ [finalText], phase := Phase.polled }
          else { s2 with phase := Phase.polled }
        else { s2 with phase := Phase.committed }
    | StreamEvent.fail isAbort active emsg =>
      let s1 := { s with timers := timersClear s.timers }
      if isAbort = true ∨ active = false then { s1 with phase := Phase.discarded }
      else { s1 with muts := s1.muts ++ [errorText emsg], phase := Phase.errored }

/-- Run the read loop from its initial state over a list of events. -/
def runLoop (events : List StreamEvent) : LoopState := events.foldl step loopInit

theorem flushBuf_frame (s : LoopState) :
    (flushBuf s).timers = s.timers ∧ (flushBuf s).gotAnyByte = s.gotAnyByte ∧
    (flushBuf s).phase = s.phase ∧ (flushBuf s).flushTimer = s.flushTimer := by
  unfold flushBuf
  split <;> exact ⟨rfl, rfl, rfl, rfl⟩

theorem step_timers_spec (s : LoopState) (e : StreamEvent) :
    ((step s e).timers = s.timers ∧ (step s e).gotAnyByte = s.gotAnyByte) ∨
    ((step s e).timers = timersClear s.timers ∧ (step s e).gotAnyByte = s.gotAnyByte) ∨
    ((step s e).timers = armProgress (disarmFirstByte s.timers) 120000 ∧
      (step s e).gotAnyByte = true) ∨
    ((step s e).timers = armProgress s.timers 120000 ∧ s.gotAnyByte = true ∧
      (step s e).gotAnyByte = true) := by
  unfold step
  by_cases hp : s.phase ≠ Phase.running
  · rw [if_pos hp]
    cases e with
    | flushFire =>
      by_cases hf : s.flushTimer = true
      · rw [if_pos hf]
        exact Or.inl ⟨(flushBuf_frame _).1, (flushBuf_frame _).2.1⟩
      · rw [if_neg hf]
        exact Or.inl ⟨rfl, rfl⟩
    | chunk bytes active => exact Or.inl ⟨rfl, rfl⟩
    | done active => exact Or.inl ⟨rfl, rfl⟩
    | fail a b m => exact Or.inl ⟨rfl, rfl⟩
  · rw [if_neg hp]
    cases e with
    | flushFire =>
      by_cases hf : s.flushTimer = true
      · rw [if_pos hf]
        exact Or.inl ⟨(flushBuf_frame _).1, (flushBuf_frame _).2.1⟩
      · rw [if_neg hf]
        exact Or.inl ⟨rfl, rfl⟩
    | done active =>
      simp only []
      by_cases ha : active = false
      · rw [if_pos ha]
        exact Or.inr (Or.inl ⟨rfl, (flushBuf_frame _).2.1⟩)
      · rw [if_neg ha]
        by_cases hg : (flushBuf { s with flushTimer := false }).gotAnyByte = false
        · rw [if_pos hg]
          refine Or.inr (Or.inl ⟨rfl, ?_⟩)
          exact (flushBuf_frame _).2.1
        · rw [if_neg hg]
          by_cases hs : (flushBuf { s with flushTimer := false }).sawAnyText = false
          · rw [if_pos hs]
            exact Or.inr (Or.inl ⟨rfl, (flushBuf_frame _).2.1⟩)
          · rw [if_neg hs]
            split
            · split
              · exact Or.inr (Or.inl ⟨rfl, (flushBuf_frame _).2.1⟩)
              · exact Or.inr (Or.inl ⟨rfl, (flushBuf_frame _).2.1⟩)
            · exact Or.inr (Or.inl ⟨rfl, (flushBuf_frame _).2.1⟩)
    | fail a b m =>
      simp only []
      split
      · exact Or.inr (Or.inl ⟨rfl, rfl⟩)
      · exact Or.inr (Or.inl ⟨rfl, rfl⟩)
    | chunk bytes active =>
      simp only []
      by_cases ha : active = false
      · rw [if_pos ha]
        exact Or.inr (Or.inl ⟨rfl, rfl⟩)
      · rw [if_neg ha]
        by_cases hlen : bytes.length ≠ 0
        · rw [if_pos hlen]
          by_cases hg : s.gotAnyByte = false
          · rw [if_pos hg]
            split
            · split
              · refine Or.inr (Or.inr (Or.inl ⟨?_, ?_⟩))
                · exact (flushBuf_frame _).1
                · exact (flushBuf_frame _).2.1
              · exact Or.inr (Or.inr (Or.inl ⟨rfl, rfl⟩))
            · exact Or.inr (Or.inr (Or.inl ⟨rfl, rfl⟩))
          · rw [if_neg hg]
            have hg' : s.gotAnyByte = true := by
              cases hgb : s.gotAnyByte
              · exact absurd hgb hg
              · rfl
            split
            · split
              · refine Or.inr (Or.inr (Or.inr ⟨?_, hg', ?_⟩))
                · exact (flushBuf_frame _).1
                · exact ((flushBuf_frame _).2.1).trans hg'
              · exact Or.inr (Or.inr (Or.inr ⟨rfl, hg', hg'⟩))
            · exact Or.inr (Or.inr (Or.inr ⟨rfl, hg', hg'⟩))
        · rw [if_neg hlen]
          split
          · split
            · exact Or.inl ⟨(flushBuf_frame _).1, (flushBuf_frame _).2.1⟩
            · exact Or.inl ⟨rfl, rfl⟩
          · exact Or.inl ⟨rfl, rfl⟩

/-- The timer-disjointness invariant of one streaming send: before any
byte has arrived the progress timer is unarmed and the first-byte timer is
unarmed or armed at 30 s; after a byte has arrived the first-byte timer is
permanently unarmed and the progress timer is unarmed or armed at 120 s. -/
def TimerInv (s : LoopState) : Prop :=
  (s.gotAnyByte = false →
    s.timers.progressTimer = none ∧
    (s.timers.firstByteTimer = none ∨ s.timers.firstByteTimer = some 30000)) ∧
  (s.gotAnyByte = true →
    s.timers.firstByteTimer = none ∧
    (s.timers.progressTimer = none ∨ s.timers.progressTimer = some 120000))

theorem step_TimerInv (s : LoopState) (e : StreamEvent) (h : TimerInv s) :
    TimerInv (step s e) := by
  obtain ⟨h1, h2⟩ := h
  rcases step_timers_spec s e with ⟨ht, hg⟩ | ⟨ht, hg⟩ | ⟨ht, hg⟩ | ⟨ht, hg1, hg⟩
  · refine ⟨fun hb => ?_, fun hb => ?_⟩
    · rw [ht]
      exact h1 (hg.symm.trans hb)
    · rw [ht]
      exact h2 (hg.symm.trans hb)
  · refine ⟨fun hb => ?_, fun hb => ?_⟩
    · rw [ht]
      exact ⟨rfl, Or.inl rfl⟩
    · rw [ht]
      exact ⟨rfl, Or.inl rfl⟩
  · refine ⟨fun hb => ?_, fun hb => ?_⟩
    · exact absurd (hg.symm.trans hb) (by decide)
    · rw [ht]
      exact ⟨rfl, Or.inr rfl⟩
  · refine ⟨fun hb => ?_, fun hb => ?_⟩
    · exact absurd (hg.symm.trans hb) (by decide)
    · rw [ht]
      exact ⟨(h2 hg1).1, Or.inr rfl⟩

/-- C6: during one streaming send the two stream timers are disjoint — if
no byte has arrived only the first-byte timer (armed at 30 s) can be
armed, and once any non-empty chunk has arrived the first-byte timer is
permanently disarmed and only the progress timer (re-armed at 120 s on
every byte) can be armed; clearing already-cleared timers has no effect. -/
theorem claim_C6 (events : List StreamEvent) :
    ((runLoop events).gotAnyByte = false →
      (runLoop events).timers.progressTimer = none ∧
      ((runLoop events).timers.firstByteTimer = none ∨
        (runLoop events).timers.firstByteTimer = some 30000)) ∧
    ((runLoop events).gotAnyByte = true →
      (runLoop events).timers.firstByteTimer = none ∧
      ((runLoop events).timers.progressTimer = none ∨
        (runLoop events).timers.progressTimer = some 120000)) ∧
    (∀ t : TimerState, timersClear (timersClear t) = timersClear t) := by
  have key : ∀ (evs : List StreamEvent) (s : LoopState), TimerInv s →
      TimerInv (List.foldl step s evs) := by
    intro evs
    induction evs with
    | nil => exact fun s h => h
    | cons e evs ih => exact fun s h => ih _ (step_TimerInv s e h)
  have h0 : TimerInv loopInit := by
    refine ⟨fun _ => ⟨rfl, Or.inr rfl⟩, fun hb => absurd hb (by decide)⟩
  exact ⟨(key events loopInit h0).1, (key events loopInit h0).2, fun t => rfl⟩

/-- C7: if the stream ends with zero bytes ever received (every read
yielded an empty chunk) and the thread is still active, the assistant
placeholder is overwritten with the distinct empty-stream warning, the
operation terminates in the `emptyWarned` phase, and the reconciliation
poller is never invoked (the phase is not `polled`). -/
theorem claim_C7 (evs : List StreamEvent)
    (h : ∀ e ∈ evs, e = StreamEvent.chunk [] true) :
    (runLoop (evs ++ [StreamEvent.done true])).muts = [emptyWarnText] ∧
    (runLoop (evs ++ [StreamEvent.done true])).phase = Phase.emptyWarned ∧
    (runLoop (evs ++ [StreamEvent.done true])).phase ≠ Phase.polled := by
  have hpre : ∀ (l : List StreamEvent), (∀ e ∈ l, e = StreamEvent.chunk [] true) →
      List.foldl step loopInit l = loopInit := by
    intro l
    induction l with
    | nil => intro _; rfl
    | cons e l ih =>
      intro hl
      have he : e = StreamEvent.chunk [] true := hl e (List.mem_cons_self e l)
      subst he
      have hstep : step loopInit (StreamEvent.chunk [] true) = loopInit := rfl
      show List.foldl step (step loopInit (StreamEvent.chunk [] true)) l = loopInit
      rw [hstep]
      exact ih (fun x hx => hl x (List.mem_cons_of_mem _ hx))
  show (List.foldl step loopInit (evs ++ [StreamEvent.done true])).muts = _ ∧
    (List.foldl step loopInit (evs ++ [StreamEvent.done true])).phase = _ ∧
    (List.foldl step loopInit (evs ++ [StreamEvent.done true])).phase ≠ _
  rw [List.foldl_append, hpre evs h]
  refine ⟨rfl, rfl, by decide⟩

theorem claim_C7_witness :
    (∀ e ∈ [StreamEvent.chunk [] true], e = StreamEvent.chunk [] true) ∧
    ((runLoop ([StreamEvent.chunk [] true] ++ [StreamEvent.done true])).muts =
      [emptyWarnText] ∧
     (runLoop ([StreamEvent.chunk [] true] ++ [StreamEvent.done true])).phase =
      Phase.emptyWarned ∧
     (runLoop ([StreamEvent.chunk [] true] ++ [StreamEvent.done true])).phase ≠
      Phase.polled) :=
  ⟨by simp, claim_C7 [StreamEvent.chunk [] true] (by simp)⟩

theorem flushBuf_empty (s : LoopState) (h : s.pending = []) : flushBuf s = s := by
  unfold flushBuf
  rw [if_pos h]

theorem flushBuf_muts (s : LoopState) (h : s.pending ≠ []) :
    (flushBuf s).muts =
      s.muts ++ [if s.acc ++ s.pending = [] then thinkingText else s.acc ++ s.pending] := by
  unfold flushBuf
  rw [if_neg h]

theorem step_chunk_stale (s : LoopState) (hrun : s.phase = Phase.running)
    (bytes : List Nat) :
    step s (StreamEvent.chunk bytes false) =
      { s with timers := timersClear s.timers, phase := Phase.discarded } := by
  unfold step
  rw [hrun, if_neg (fun h => h rfl)]
  rfl

theorem step_fail_stale (s : LoopState) (hrun : s.phase = Phase.running)
    (a : Bool) (emsg : List Nat) :
    step s (StreamEvent.fail a false emsg) =
      { s with timers := timersClear s.timers, phase := Phase.discarded } := by
  unfold step
  rw [hrun, if_neg (fun h => h rfl)]
  cases a <;> rfl

theorem step_done_false (s : LoopState) (hrun : s.phase = Phase.running) :
    step s (StreamEvent.done false) =
      { flushBuf { s with flushTimer := false } with
        timers := timersClear (flushBuf { s with flushTimer := false }).timers
        phase := Phase.discarded } := by
  unfold step
  rw [hrun, if_neg (fun h => h rfl)]
  rfl

theorem step_after_return (t : LoopState) (ht : t.phase ≠ Phase.running)
    (htf : t.flushTimer = false) (e : StreamEvent) : step t e = t := by
  unfold step
  rw [if_pos ht]
  cases e with
  | flushFire =>
    rw [htf]
    rfl
  | chunk bytes active => rfl
  | done active => rfl
  | fail a b m => rfl

/-- C1, counterexample to "zero mutations after the token mismatch": one
chunk of text arrives while the thread is active, the loop buffers it for
the 50 ms flush, and then the stream ends AFTER the user has switched
threads — the end-of-stream path flushes the remainder (one
`updateAssistantText` call) BEFORE checking the active-thread token, so
the stale completion still mutates the transcript. -/
theorem claim_C1_counterexample :
    (runLoop [StreamEvent.chunk [0x41] true]).muts = [] ∧
    (runLoop [StreamEvent.chunk [0x41] true, StreamEvent.done false]).muts = [[0x41]] ∧
    (runLoop [StreamEvent.chunk [0x41] true, StreamEvent.done false]).phase =
      Phase.discarded :=
  ⟨rfl, by decide, by decide⟩

/-- C1 (amended): a stale completion is ALMOST silent.  A mid-loop read
that observes the token mismatch, and a failure while stale or aborted,
produce zero transcript mutations; once the function has returned and no
flush is pending, every further event is inert.  But the end-of-stream
path flushes buffered text before the token check: a stale `done` adds
exactly the one remainder-flush mutation whenever `pending` is non-empty
(and none otherwise).  The original claim's "zero mutations" is therefore
wrong for the stream-end path — see the counterexample. -/
theorem claim_C1_amended (s t : LoopState) (bytes emsg : List Nat) (a : Bool)
    (e : StreamEvent)
    (hrun : s.phase = Phase.running)
    (ht : t.phase ≠ Phase.running) (htf : t.flushTimer = false) :
    (step s (StreamEvent.chunk bytes false)).muts = s.muts ∧
    (step s (StreamEvent.chunk bytes false)).phase = Phase.discarded ∧
    (step s (StreamEvent.fail a false emsg)).muts = s.muts ∧
    (step s (StreamEvent.fail a false emsg)).phase = Phase.discarded ∧
    (step s (StreamEvent.done false)).phase = Phase.discarded ∧
    (s.pending = [] → (step s (StreamEvent.done false)).muts = s.muts) ∧
    (s.pending ≠ [] → (step s (StreamEvent.done false)).muts =
      s.muts ++ [if s.acc ++ s.pending = [] then thinkingText else s.acc ++ s.pending]) ∧
    step t e = t := by
  refine ⟨?_, ?_, ?_, ?_, ?_, ?_, ?_, step_after_return t ht htf e⟩
  · rw [step_chunk_stale s hrun bytes]
  · rw [step_chunk_stale s hrun bytes]
  · rw [step_fail_stale s hrun a emsg]
  · rw [step_fail_stale s hrun a emsg]
  · rw [step_done_false s hrun]
  · intro hp
    rw [step_done_false s hrun]
    show (flushBuf { s with flushTimer := false }).muts = s.muts
    rw [flushBuf_empty { s with flushTimer := false } hp]
  · intro hp
    rw [step_done_false s hrun]
    show (flushBuf { s with flushTimer := false }).muts = _
    rw [flushBuf_muts { s with flushTimer := false } hp]

theorem claim_C1_amended_witness :
    loopInit.phase = Phase.running ∧
    ({ loopInit with phase := Phase.discarded } : LoopState).phase ≠ Phase.running ∧
    ({ loopInit with phase := Phase.discarded } : LoopState).flushTimer = false ∧
    ((step loopInit (StreamEvent.chunk [0x41] false)).muts = loopInit.muts ∧
     (step loopInit (StreamEvent.chunk [0x41] false)).phase = Phase.discarded ∧
     (step loopInit (StreamEvent.fail false false [])).muts = loopInit.muts ∧
     (step loopInit (StreamEvent.fail false false [])).phase = Phase.discarded ∧
     (step loopInit (StreamEvent.done false)).phase = Phase.discarded ∧
     (loopInit.pending = [] → (step loopInit (StreamEvent.done false)).muts =
       loopInit.muts) ∧
     (loopInit.pending ≠ [] → (step loopInit (StreamEvent.done false)).muts =
       loopInit.muts ++ [if loopInit.acc ++ loopInit.pending = [] then thinkingText
         else loopInit.acc ++ loopInit.pending]) ∧
     step { loopInit with phase := Phase.discarded } (StreamEvent.done true) =
       { loopInit with phase := Phase.discarded }) :=
  ⟨rfl, by decide, rfl,
    claim_C1_amended loopInit { loopInit with phase := Phase.discarded } [0x41] [] false
      (StreamEvent.done true) rfl (by decide) rfl⟩

/- ===== transcript, abortInFlight, and the poller ===== -/

/-- `"assistant"`. -/
def roleAssistant : List Nat := [0x61, 0x73, 0x73, 0x69, 0x73, 0x74, 0x61, 0x6E, 0x74]

/-- One backend message (`BackendMsg` in `ChatApp.tsx`): `id`, timestamp
`ts` (`Date.now()` milliseconds), `role`, `text`, and the optional
`clientMsgId`. -/
structure BackendMsg where
  id : List Nat
  ts : Nat
  role : List Nat
  text : List Nat
  clientMsgId : Option (List Nat)
deriving Repr, DecidableEq

/-- `updateAssistantText(assistantId, text)`: map over the history and
replace the text of the message whose id matches. -/
def updateAssistantText (h : List BackendMsg) (assistantId text : List Nat) :
    List BackendMsg :=
  h.map (fun m => if m.id = assistantId then { m with text := text } else m)

/-- The backward walk of `abortInFlight`'s `setHistory` updater, expressed
on the reversed history: overwrite the text of the first assistant-role
message encountered. -/
def stopFirstAssistant : List BackendMsg → List BackendMsg
  | [] => []
  | m :: rest =>
    if m.role = roleAssistant then { m with text := stoppedText } :: rest
    else m :: stopFirstAssistant rest

/-- `abortInFlight`'s history update: walk from the END of the history and
overwrite the last assistant-role message with the stopped indicator. -/
def stopLastAssistant (h : List BackendMsg) : List BackendMsg :=
  (stopFirstAssistant h.reverse).reverse

/-- The component state touched by `abortInFlight` and the thread-switch
click: the transcript, the `isStreaming` flag, whether
`inFlightAbortRef.current` is non-null, and the selected thread id. -/
structure RuntimeState where
  history : List BackendMsg
  isStreaming : Bool
  inFlightAbort : Bool
  threadId : List Nat
deriving Repr, DecidableEq

/-- `abortInFlight()`: if no controller is in flight, return immediately;
otherwise overwrite the last assistant message with `"⏹️ Stopped."`
("update UI immediately no matter what"), abort the controller, clear the
slot, and stop streaming. -/
def abortInFlight (st : RuntimeState) : RuntimeState :=
  if st.inFlightAbort = false then st
  else
    { st with
      history := stopLastAssistant st.history
      inFlightAbort := false
      isStreaming := false }

/-- The sidebar thread button's `onClick`: `abortInFlight(); setThreadId(tid)`. -/
def threadSwitchClick (st : RuntimeState) (tid : List Nat) : RuntimeState :=
  { abortInFlight st with threadId := tid }

/-- C10: calling `abortInFlight` with no in-flight controller is a
complete no-op — transcript, streaming flag, slot, and thread id are all
unchanged. -/
theorem claim_C10 (st : RuntimeState) (h : st.inFlightAbort = false) :
    abortInFlight st = st := by
  unfold abortInFlight
  rw [if_pos h]

theorem claim_C10_witness :
    (⟨[], false, false, []⟩ : RuntimeState).inFlightAbort = false ∧
    abortInFlight ⟨[], false, false, []⟩ = (⟨[], false, false, []⟩ : RuntimeState) :=
  ⟨rfl, claim_C10 ⟨[], false, false, []⟩ rfl⟩

/-- C3, counterexample to "a thread-switch cancellation produces no
transcript mutation": with a controller in flight, clicking another
thread runs `abortInFlight`, which overwrites the last assistant message
with the stopped indicator BEFORE the switch ("update UI immediately no
matter what") — the transcript is mutated. -/
theorem claim_C3_counterexample :
    (threadSwitchClick
        ⟨[⟨[0x6D], 5, roleAssistant, thinkingText, none⟩], true, true, [0x74]⟩
        [0x75]).history ≠
      [⟨[0x6D], 5, roleAssistant, thinkingText, none⟩] ∧
    (threadSwitchClick
        ⟨[⟨[0x6D], 5, roleAssistant, thinkingText, none⟩], true, true, [0x74]⟩
        [0x75]).history =
      [⟨[0x6D], 5, roleAssistant, stoppedText, none⟩] ∧
    (threadSwitchClick
        ⟨[⟨[0x6D], 5, roleAssistant, thinkingText, none⟩], true, true, [0x74]⟩
        [0x75]).threadId = [0x75] :=
  ⟨by decide, by decide, by decide⟩

/-- C3 (amended): whenever a controller is in flight, cancellation —
user stop OR thread switch alike — overwrites the last assistant-role
message with the stopped indicator, clears the slot, and stops streaming;
the thread switch is NOT silent (see the counterexample).  Only when
nothing is in flight does a thread switch leave the transcript
untouched. -/
theorem claim_C3_amended (st : RuntimeState) (tid : List Nat) :
    (st.inFlightAbort = true →
      abortInFlight st =
        { st with
          history := stopLastAssistant st.history
          inFlightAbort := false
          isStreaming := false } ∧
      (threadSwitchClick st tid).history = stopLastAssistant st.history) ∧
    (st.inFlightAbort = false →
      (threadSwitchClick st tid).history = st.history) := by
  constructor
  · intro h
    have hab : abortInFlight st =
        { st with
          history := stopLastAssistant st.history
          inFlightAbort := false
          isStreaming := false } := by
      unfold abortInFlight
      rw [if_neg (by rw [h]; exact fun hc => Bool.noConfusion hc)]
    exact ⟨hab, by unfold threadSwitchClick; rw [hab]⟩
  · intro h
    show ({ abortInFlight st with threadId := tid }).history = st.history
    have hab : abortInFlight st = st := by
      unfold abortInFlight
      rw [if_pos h]
    rw [hab]

theorem claim_C3_amended_witness :
    (((⟨[⟨[0x6D], 5, roleAssistant, thinkingText, none⟩], true, true, [0x74]⟩ :
        RuntimeState)).inFlightAbort = true →
      abortInFlight ⟨[⟨[0x6D], 5, roleAssistant, thinkingText, none⟩], true, true, [0x74]⟩ =
        { (⟨[⟨[0x6D], 5, roleAssistant, thinkingText, none⟩], true, true, [0x74]⟩ :
            RuntimeState) with
          history := stopLastAssistant
            [⟨[0x6D], 5, roleAssistant, thinkingText, none⟩]
          inFlightAbort := false
          isStreaming := false } ∧
      (threadSwitchClick
          ⟨[⟨[0x6D], 5, roleAssistant, thinkingText, none⟩], true, true, [0x74]⟩
          [0x75]).history =
        stopLastAssistant [⟨[0x6D], 5, roleAssistant, thinkingText, none⟩]) ∧
    (((⟨[⟨[0x6D], 5, roleAssistant, thinkingText, none⟩], true, true, [0x74]⟩ :
        RuntimeState)).inFlightAbort = false →
      (threadSwitchClick
          ⟨[⟨[0x6D], 5, roleAssistant, thinkingText, none⟩], true, true, [0x74]⟩
          [0x75]).history =
        [⟨[0x6D], 5, roleAssistant, thinkingText, none⟩]) :=
  claim_C3_amended ⟨[⟨[0x6D], 5, roleAssistant, thinkingText, none⟩], true, true, [0x74]⟩
    [0x75]

/-- C9: `updateAssistantText` is a pure frame update — if no message has
the id the transcript is unchanged; the number and order of entries are
preserved (position `i` still holds the image of the old position `i`);
a non-matching message is untouched; the matching message keeps its id,
timestamp, role and clientMsgId and only its text changes. -/
theorem claim_C9 (h : List BackendMsg) (assistantId text : List Nat) :
    ((∀ m ∈ h, m.id ≠ assistantId) → updateAssistantText h assistantId text = h) ∧
    (updateAssistantText h assistantId text).length = h.length ∧
    (∀ i : Nat, (updateAssistantText h assistantId text).get? i =
      (h.get? i).map (fun m => if m.id = assistantId then { m with text := text } else m)) ∧
    (∀ i : Nat, ∀ m, h.get? i = some m → m.id ≠ assistantId →
      (updateAssistantText h assistantId text).get? i = some m) ∧
    (∀ i : Nat, ∀ m, h.get? i = some m → m.id = assistantId →
      (updateAssistantText h assistantId text).get? i =
        some { m with text := text }) ∧
    (∀ i : Nat, ∀ m m', h.get? i = some m →
      (updateAssistantText h assistantId text).get? i = some m' →
      m'.id = m.id ∧ m'.ts = m.ts ∧ m'.role = m.role ∧
      m'.clientMsgId = m.clientMsgId) := by
  have hget : ∀ i : Nat, (updateAssistantText h assistantId text).get? i =
      (h.get? i).map (fun m => if m.id = assistantId then { m with text := text } else m) := by
    intro i
    unfold updateAssistantText
    exact List.get?_map _ _ _
  refine ⟨?_, ?_, hget, ?_, ?_, ?_⟩
  · intro hall
    unfold updateAssistantText
    clear hget
    induction h with
    | nil => rfl
    | cons m rest ih =>
      rw [List.map_cons, if_neg (hall m (List.mem_cons_self m rest)),
        ih (fun x hx => hall x (List.mem_cons_of_mem _ hx))]
  · unfold updateAssistantText
    exact List.length_map _ _
  · intro i m hm hne
    rw [hget i, hm, Option.map_some', if_neg hne]
  · intro i m hm heq
    rw [hget i, hm, Option.map_some', if_pos heq]
  · intro i m m' hm hm'
    rw [hget i, hm, Option.map_some'] at hm'
    have hmm : m' = if m.id = assistantId then { m with text := text } else m :=
      (Option.some.inj hm').symm
    by_cases hid : m.id = assistantId
    · rw [hmm, if_pos hid]
      exact ⟨rfl, rfl, rfl, rfl⟩
    · rw [hmm, if_neg hid]
      exact ⟨rfl, rfl, rfl, rfl⟩

theorem claim_C9_witness :
    ((∀ m ∈ [(⟨[0x61], 1, roleAssistant, thinkingText, none⟩ : BackendMsg)],
        m.id ≠ [0x62]) →
      updateAssistantText [⟨[0x61], 1, roleAssistant, thinkingText, none⟩] [0x62] [0x78] =
        [⟨[0x61], 1, roleAssistant, thinkingText, none⟩]) ∧
    (updateAssistantText [⟨[0x61], 1, roleAssistant, thinkingText, none⟩] [0x62]
      [0x78]).length =
      [(⟨[0x61], 1, roleAssistant, thinkingText, none⟩ : BackendMsg)].length ∧
    (∀ i : Nat,
      (updateAssistantText [⟨[0x61], 1, roleAssistant, thinkingText, none⟩] [0x62]
        [0x78]).get? i =
      ([(⟨[0x61], 1, roleAssistant, thinkingText, none⟩ : BackendMsg)].get? i).map
        (fun m => if m.id = [0x62] then { m with text := [0x78] } else m)) ∧
    (∀ i : Nat, ∀ m,
      [(⟨[0x61], 1, roleAssistant, thinkingText, none⟩ : BackendMsg)].get? i = some m →
      m.id ≠ [0x62] →
      (updateAssistantText [⟨[0x61], 1, roleAssistant, thinkingText, none⟩] [0x62]
        [0x78]).get? i = some m) ∧
    (∀ i : Nat, ∀ m,
      [(⟨[0x61], 1, roleAssistant, thinkingText, none⟩ : BackendMsg)].get? i = some m →
      m.id = [0x62] →
      (updateAssistantText [⟨[0x61], 1, roleAssistant, thinkingText, none⟩] [0x62]
        [0x78]).get? i = some { m with text := [0x78] }) ∧
    (∀ i : Nat, ∀ m m',
      [(⟨[0x61], 1, roleAssistant, thinkingText, none⟩ : BackendMsg)].get? i = some m →
      (updateAssistantText [⟨[0x61], 1, roleAssistant, thinkingText, none⟩] [0x62]
        [0x78]).get? i = some m' →
      m'.id = m.id ∧ m'.ts = m.ts ∧ m'.role = m.role ∧
      m'.clientMsgId = m.clientMsgId) :=
  claim_C9 [⟨[0x61], 1, roleAssistant, thinkingText, none⟩] [0x62] [0x78]

/-- `m.ts <= m'.ts` — the comparator `(a, b) => a.ts - b.ts` of the
poller's stable sort. -/
def tsLe (a b : BackendMsg) : Prop := a.ts ≤ b.ts

instance : DecidableRel tsLe := fun a b => Nat.decLe a.ts b.ts

instance : IsTotal BackendMsg tsLe := ⟨fun a b => Nat.le_total a.ts b.ts⟩

instance : IsTrans BackendMsg tsLe := ⟨fun _ _ _ => Nat.le_trans⟩

/-- The poller's candidate filter: assistant-role messages with a
timestamp at or after the triggering user message. -/
def candidatesOf (msgs : List BackendMsg) (userTs : Nat) : List BackendMsg :=
  msgs.filter (fun m => decide (m.role = roleAssistant) && decide (userTs ≤ m.ts))

/-- The stable sort by timestamp (`.sort((a, b) => a.ts - b.ts)`),
modelled by insertion sort, which is stable. -/
def sortByTs (l : List BackendMsg) : List BackendMsg := List.insertionSort tsLe l

/-- `normalizeText(latest?.text)`: the text of `candidates[candidates.length - 1]`,
or the empty string when there is no candidate. -/
def latestAssistantText (msgs : List BackendMsg) (userTs : Nat) : List Nat :=
  match (sortByTs (candidatesOf msgs userTs)).getLast? with
  | none => []
  | some m => m.text

/-- One observed iteration of `pollForFinalAssistant`'s while loop: the
abort signal was already set at the top, the `getThread` fetch threw, or
it returned a message list (with the abort/active-thread status observed
right after the fetch). -/
inductive PollEvent where
  | abortedAtTop
  | fetchErr
  | fetchOk (msgs : List BackendMsg) (abortedAfter : Bool) (activeAfter : Bool)
deriving Repr

/-- How the poll loop ended: it committed a final text, or stopped
silently (abort, stale thread, or deadline). -/
inductive PollOutcome where
  | committed (text : List Nat)
  | stopped
deriving Repr, DecidableEq

/-- `pollForFinalAssistant`'s loop over the observed iterations, threading
`lastSeen`; the iteration list running out models the 60 s deadline.  The
second component lists the texts committed via `updateAssistantText`. -/
def pollRun (userTs : Nat) : List PollEvent → List Nat → PollOutcome × List (List Nat)
  | [], _ => (PollOutcome.stopped, [])
  | e :: es, lastSeen =>
    match e with
    | PollEvent.abortedAtTop => (PollOutcome.stopped, [])
    | PollEvent.fetchErr => pollRun userTs es lastSeen
    | PollEvent.fetchOk msgs abortedAfter activeAfter =>
      if abortedAfter = true then (PollOutcome.stopped, [])
      else if activeAfter = false then (PollOutcome.stopped, [])
      else
        let text := latestAssistantText msgs userTs
        if text ≠ [] ∧ looksLikeBrowsingPlaceholder text = false ∧
            text ≠ thinkingText ∧ text ≠ lastSeen then
          (PollOutcome.committed text, [text])
        else
          pollRun userTs es (if text ≠ [] then text else lastSeen)

theorem sorted_getLast_max (l : List BackendMsg) (hs : List.Sorted tsLe l)
    (m : BackendMsg) (hm : l.getLast? = some m) : ∀ x ∈ l, x.ts ≤ m.ts := by
  induction l with
  | nil => exact absurd hm (by simp)
  | cons a t ih =>
    cases t with
    | nil =>
      intro x hx
      rw [List.mem_singleton] at hx
      have ham : a = m :=
        Option.some.inj (show (some a : Option BackendMsg) = some m from hm)
      rw [hx, ham]
    | cons b t' =>
      have hm' : (b :: t').getLast? = some m := by
        rw [← hm]
        rfl
      have hs' : List.Sorted tsLe (b :: t') := hs.tail
      have hmax := ih hs' hm'
      intro x hx
      rcases List.mem_cons.1 hx with rfl | hx
      · have hmem : m ∈ b :: t' := by
          obtain ⟨hne, heq⟩ :=
            List.mem_getLast?_eq_getLast (show m ∈ (b :: t').getLast? from hm')
          rw [heq]
          exact List.getLast_mem hne
        exact (List.rel_of_sorted_cons hs m hmem : tsLe x m)
      · exact hmax x hx

theorem getLast?_mem_list (l : List BackendMsg) (m : BackendMsg)
    (h : l.getLast? = some m) : m ∈ l := by
  obtain ⟨hne, heq⟩ := List.mem_getLast?_eq_getLast (show m ∈ l.getLast? from h)
  rw [heq]
  exact List.getLast_mem hne

/-- C8: the reconciliation poller's selection and commit rule.  The
candidate set is exactly the assistant-role messages with timestamp at or
after the triggering user message; the selected message (the last entry
of the stable sort by timestamp) is a candidate of maximal timestamp; on
an active, non-aborted iteration the poller commits the selected text if
and only if it is non-empty, not the browsing placeholder, not the
interim text, and different from the last value seen this loop (otherwise
it continues, remembering a non-empty text as last seen); a loop that
stops — abort, stale thread, or the deadline running out — commits
nothing, and a loop that commits performs exactly that one transcript
write, of a qualifying text. -/
theorem claim_C8 (userTs : Nat) :
    (∀ msgs m, (sortByTs (candidatesOf msgs userTs)).getLast? = some m →
      m ∈ candidatesOf msgs userTs ∧
      ∀ x ∈ candidatesOf msgs userTs, x.ts ≤ m.ts) ∧
    (∀ msgs (m : BackendMsg), m ∈ candidatesOf msgs userTs ↔
      m ∈ msgs ∧ m.role = roleAssistant ∧ userTs ≤ m.ts) ∧
    (∀ msgs es lastSeen,
      ((latestAssistantText msgs userTs ≠ [] ∧
        looksLikeBrowsingPlaceholder (latestAssistantText msgs userTs) = false ∧
        latestAssistantText msgs userTs ≠ thinkingText ∧
        latestAssistantText msgs userTs ≠ lastSeen) →
        pollRun userTs (PollEvent.fetchOk msgs false true :: es) lastSeen =
          (PollOutcome.committed (latestAssistantText msgs userTs),
            [latestAssistantText msgs userTs])) ∧
      (¬ (latestAssistantText msgs userTs ≠ [] ∧
          looksLikeBrowsingPlaceholder (latestAssistantText msgs userTs) = false ∧
          latestAssistantText msgs userTs ≠ thinkingText ∧
          latestAssistantText msgs userTs ≠ lastSeen) →
        pollRun userTs (PollEvent.fetchOk msgs false true :: es) lastSeen =
          pollRun userTs es
            (if latestAssistantText msgs userTs ≠ [] then latestAssistantText msgs userTs
              else lastSeen))) ∧
    (∀ evs lastSeen, (pollRun userTs evs lastSeen).1 = PollOutcome.stopped →
      (pollRun userTs evs lastSeen).2 = []) ∧
    (∀ evs lastSeen t, (pollRun userTs evs lastSeen).1 = PollOutcome.committed t →
      (pollRun userTs evs lastSeen).2 = [t] ∧ t ≠ [] ∧
      looksLikeBrowsingPlaceholder t = false ∧ t ≠ thinkingText) := by
  refine ⟨?_, ?_, ?_, ?_, ?_⟩
  · intro msgs m hm
    have hmemsort : m ∈ sortByTs (candidatesOf msgs userTs) :=
      getLast?_mem_list _ m hm
    have hsorted : List.Sorted tsLe (sortByTs (candidatesOf msgs userTs)) :=
      List.sorted_insertionSort tsLe _
    have hmax := sorted_getLast_max _ hsorted m hm
    constructor
    · exact (List.mem_insertionSort tsLe).1 hmemsort
    · intro x hx
      exact hmax x ((List.mem_insertionSort tsLe).2 hx)
  · intro msgs m
    unfold candidatesOf
    rw [List.mem_filter]
    simp only [Bool.and_eq_true, decide_eq_true_eq, and_assoc]
  · intro msgs es lastSeen
    constructor
    · intro hcond
      simp only [pollRun]
      rw [if_neg (fun h => Bool.noConfusion h), if_neg (fun h => Bool.noConfusion h),
        if_pos hcond]
    · intro hcond
      simp only [pollRun]
      rw [if_neg (fun h => Bool.noConfusion h), if_neg (fun h => Bool.noConfusion h),
        if_neg hcond]
  · intro evs
    induction evs with
    | nil => intro _ _; rfl
    | cons e es ih =>
      intro lastSeen hstop
      cases e with
      | abortedAtTop => rfl
      | fetchErr => exact ih lastSeen hstop
      | fetchOk msgs abortedAfter activeAfter =>
        by_cases hab : abortedAfter = true
        · simp only [pollRun, if_pos hab]
        · simp only [pollRun, if_neg hab] at hstop ⊢
          by_cases hac : activeAfter = false
          · rw [if_pos hac]
          · rw [if_neg hac] at hstop ⊢
            by_cases hcond : latestAssistantText msgs userTs ≠ [] ∧
                looksLikeBrowsingPlaceholder (latestAssistantText msgs userTs) = false ∧
                latestAssistantText msgs userTs ≠ thinkingText ∧
                latestAssistantText msgs userTs ≠ lastSeen
            · rw [if_pos hcond] at hstop
              exact absurd hstop (by simp)
            · rw [if_neg hcond] at hstop ⊢
              exact ih _ hstop
  · intro evs
    induction evs with
    | nil =>
      intro lastSeen t hcom
      exact absurd hcom (by simp [pollRun])
    | cons e es ih =>
      intro lastSeen t hcom
      cases e with
      | abortedAtTop => exact absurd hcom (by simp [pollRun])
      | fetchErr => exact ih lastSeen t hcom
      | fetchOk msgs abortedAfter activeAfter =>
        by_cases hab : abortedAfter = true
        · rw [show pollRun userTs (PollEvent.fetchOk msgs abortedAfter activeAfter :: es)
              lastSeen = (PollOutcome.stopped, []) from by
              simp only [pollRun, if_pos hab]] at hcom
          exact absurd hcom (by simp)
        · simp only [pollRun, if_neg hab] at hcom ⊢
          by_cases hac : activeAfter = false
          · rw [if_pos hac] at hcom
            exact absurd hcom (by simp)
          · rw [if_neg hac] at hcom ⊢
            by_cases hcond : latestAssistantText msgs userTs ≠ [] ∧
                looksLikeBrowsingPlaceholder (latestAssistantText msgs userTs) = false ∧
                latestAssistantText msgs userTs ≠ thinkingText ∧
                latestAssistantText msgs userTs ≠ lastSeen
            · rw [if_pos hcond] at hcom ⊢
              have ht : t = latestAssistantText msgs userTs :=
                (PollOutcome.committed.inj hcom).symm
              subst ht
              exact ⟨rfl, hcond.1, hcond.2.1, hcond.2.2.1⟩
            · rw [if_neg hcond] at hcom ⊢
              exact ih _ t hcom

theorem claim_C8_witness :
    (∀ msgs m, (sortByTs (candidatesOf msgs 3)).getLast? = some m →
      m ∈ candidatesOf msgs 3 ∧
      ∀ x ∈ candidatesOf msgs 3, x.ts ≤ m.ts) ∧
    (∀ msgs (m : BackendMsg), m ∈ candidatesOf msgs 3 ↔
      m ∈ msgs ∧ m.role = roleAssistant ∧ 3 ≤ m.ts) ∧
    (∀ msgs es lastSeen,
      ((latestAssistantText msgs 3 ≠ [] ∧
        looksLikeBrowsingPlaceholder (latestAssistantText msgs 3) = false ∧
        latestAssistantText msgs 3 ≠ thinkingText ∧
        latestAssistantText msgs 3 ≠ lastSeen) →
        pollRun 3 (PollEvent.fetchOk msgs false true :: es) lastSeen =
          (PollOutcome.committed (latestAssistantText msgs 3),
            [latestAssistantText msgs 3])) ∧
      (¬ (latestAssistantText msgs 3 ≠ [] ∧
          looksLikeBrowsingPlaceholder (latestAssistantText msgs 3) = false ∧
          latestAssistantText msgs 3 ≠ thinkingText ∧
          latestAssistantText msgs 3 ≠ lastSeen) →
        pollRun 3 (PollEvent.fetchOk msgs false true :: es) lastSeen =
          pollRun 3 es
            (if latestAssistantText msgs 3 ≠ [] then latestAssistantText msgs 3
              else lastSeen))) ∧
    (∀ evs lastSeen, (pollRun 3 evs lastSeen).1 = PollOutcome.stopped →
      (pollRun 3 evs lastSeen).2 = []) ∧
    (∀ evs lastSeen t, (pollRun 3 evs lastSeen).1 = PollOutcome.committed t →
      (pollRun 3 evs lastSeen).2 = [t] ∧ t ≠ [] ∧
      looksLikeBrowsingPlaceholder t = false ∧ t ≠ thinkingText) :=
  claim_C8 3

theorem claim_C6_witness :
    ((runLoop [StreamEvent.chunk [0x42] true]).gotAnyByte = false →
      (runLoop [StreamEvent.chunk [0x42] true]).timers.progressTimer = none ∧
      ((runLoop [StreamEvent.chunk [0x42] true]).timers.firstByteTimer = none ∨
        (runLoop [StreamEvent.chunk [0x42] true]).timers.firstByteTimer = some 30000)) ∧
    ((runLoop [StreamEvent.chunk [0x42] true]).gotAnyByte = true →
      (runLoop [StreamEvent.chunk [0x42] true]).timers.firstByteTimer = none ∧
      ((runLoop [StreamEvent.chunk [0x42] true]).timers.progressTimer = none ∨
        (runLoop [StreamEvent.chunk [0x42] true]).timers.progressTimer = some 120000)) ∧
    (∀ t : TimerState, timersClear (timersClear t) = timersClear t) :=
  claim_C6 [StreamEvent.chunk [0x42] true]
